import Mathlib

/-!
# Verification of the Graph Mind hybrid retrieval pipeline

A shallow embedding, in Lean 4, of the core of the `obsidian-graph-mind`
plugin: the advanced query parser (`parseQuery`, `matchesFilters` from
`src/search/queryParser.ts`), the embedding reranker and orchestration
pipeline (`searchVaultWithProgress`, `cosineSimilarity`, `generateQuery`
from `src/agent.ts`), and the two worker message handlers
(`src/worker/worker.ts` and the jieba-enabled variant).

Modelling conventions:
* JavaScript strings are modelled as `List Char` (core) with `String`
  wrappers at the interface; character classes (`\s`, `\w`, case mapping)
  are modelled at ASCII granularity.
* JavaScript numbers are modelled as `ℚ`; `Math.sqrt` (an external
  numeric routine) is an explicit function parameter.
* `RegExp.exec` loops with a persistent `lastIndex` over a mutating
  string are modelled exactly, with a fuel argument for termination; a
  fuel of `length + 1` always suffices because every accepted match is
  nonempty and is removed from the working string.
* External services (the Ollama embedding endpoint, the MiniSearch
  library, `nodejieba`, Unicode NFD normalization, `Date.now()`) are
  modelled as explicit oracles / function parameters.
-/

/-! ## Character primitives (ASCII granularity) -/

/-- The double-quote character. -/
def dquoteChar : Char := '\"'

/-- JavaScript `\s` whitespace class, restricted to its ASCII members. -/
def isWsChar (c : Char) : Bool :=
  c = ' ' || c = '\t' || c = '\n' || c = '\r' || c = '\x0b' || c = '\x0c'

/-- JavaScript `\w` class: `[A-Za-z0-9_]`. -/
def isWordChar (c : Char) : Bool :=
  ('a' ≤ c && c ≤ 'z') || ('A' ≤ c && c ≤ 'Z') || ('0' ≤ c && c ≤ '9') || c = '_'

/-- ASCII letter `[A-Za-z]`. -/
def isAsciiLetterChar (c : Char) : Bool :=
  ('a' ≤ c && c ≤ 'z') || ('A' ≤ c && c ≤ 'Z')

/-- Characters allowed after the leading letter of a `#tag`: slash, hyphen, `[a-zA-Z0-9_]`. -/
def isTagChar (c : Char) : Bool :=
  isAsciiLetterChar c || ('0' ≤ c && c ≤ '9') || c = '_' || c = '/' || c = '-'

/-- Uppercase ASCII `[A-Z]` (the camelCase split class). -/
def isUpperChar (c : Char) : Bool := 'A' ≤ c && c ≤ 'Z'

/-- The uppercase-to-lowercase ASCII table. -/
def ucPairs : List (Char × Char) :=
  [('A', 'a'), ('B', 'b'), ('C', 'c'), ('D', 'd'), ('E', 'e'), ('F', 'f'),
   ('G', 'g'), ('H', 'h'), ('I', 'i'), ('J', 'j'), ('K', 'k'), ('L', 'l'),
   ('M', 'm'), ('N', 'n'), ('O', 'o'), ('P', 'p'), ('Q', 'q'), ('R', 'r'),
   ('S', 's'), ('T', 't'), ('U', 'u'), ('V', 'v'), ('W', 'w'), ('X', 'x'),
   ('Y', 'y'), ('Z', 'z')]

/-- `String.prototype.toLowerCase` restricted to ASCII: maps `A`–`Z` to
`a`–`z` via the table and leaves every other character unchanged. -/
def lowerChar (c : Char) : Char :=
  ((ucPairs.find? fun p => p.1 = c).map Prod.snd).getD c

/-- Lowercase an ASCII string (`List Char`). -/
def lowerStr (s : List Char) : List Char := s.map lowerChar

/-! ## Substring primitives -/

/-- `leadsAt pat s`: `pat` occurs at the very start of `s`
(i.e. `pat` is an initial segment of `s`). -/
def leadsAt : List Char → List Char → Bool
  | [], _ => true
  | _ :: _, [] => false
  | p :: ps, c :: cs => p = c && leadsAt ps cs

/-- Case-insensitive `leadsAt`, for regexes with the `i` flag; the
pattern is given in lowercase. -/
def leadsAtCI : List Char → List Char → Bool
  | [], _ => true
  | _ :: _, [] => false
  | p :: ps, c :: cs => p = lowerChar c && leadsAtCI ps cs

/-- Index of the first occurrence of (nonempty) `pat` in `s`, if any. -/
def findOcc (pat : List Char) : List Char → Option Nat
  | [] => none
  | c :: cs =>
    if leadsAt pat (c :: cs) then some 0
    else (findOcc pat cs).map (· + 1)

/-- `String.prototype.includes` for nonempty needles. -/
def occursIn (pat s : List Char) : Bool := (findOcc pat s).isSome

/-- `String.prototype.includes` on `String`. -/
def occursInS (pat s : String) : Bool := occursIn pat.toList s.toList

/-- `remaining.replace(m, '')` for a literal nonempty `m`: remove the
first occurrence of `m`, or return the string unchanged if absent. -/
def removeOnce (pat : List Char) : List Char → List Char
  | [] => []
  | c :: cs =>
    if leadsAt pat (c :: cs) then (c :: cs).drop pat.length
    else c :: removeOnce pat cs

/-- JavaScript `String.prototype.trim` (ASCII whitespace). -/
def trimChars (s : List Char) : List Char :=
  ((s.dropWhile isWsChar).reverse.dropWhile isWsChar).reverse

/-- `s.split(sep)` for a single-character separator: keeps empty pieces,
always returns at least one piece. -/
def splitOnCharL (sep : Char) : List Char → List (List Char)
  | [] => [[]]
  | c :: cs =>
    if c = sep then [] :: splitOnCharL sep cs
    else match splitOnCharL sep cs with
      | [] => [[c]]
      | t :: ts => (c :: t) :: ts

/-- JavaScript falsy-`||` on strings: the left operand unless it is empty. -/
def jsOr (a b : String) : String := if a = "" then b else a

/-! ## `split(/\s+/)` -/

/-- One-pass model of `s.split(/\s+/)`.  `skipping = true` means a
whitespace run is being consumed; `cur` is the current piece (reversed).
Matches JavaScript: a leading (resp. trailing) whitespace run produces a
leading (resp. trailing) empty piece, and `""` splits to `[""]`. -/
def wsSplitGo (skipping : Bool) (cur : List Char) : List Char → List (List Char)
  | [] => [cur.reverse]
  | c :: cs =>
    if isWsChar c then
      if skipping then wsSplitGo true [] cs
      else cur.reverse :: wsSplitGo true [] cs
    else wsSplitGo false (c :: cur) cs

/-- `s.split(/\s+/)`. -/
def wsSplit (s : List Char) : List (List Char) := wsSplitGo false [] s

/-- `remaining.split(/\s+/).map(t => t.trim().toLowerCase()).filter(t => t.length > 0)`:
the free-text tokens of the parser (step 7). -/
def textTokensOf (s : List Char) : List (List Char) :=
  ((wsSplit s).map fun t => (trimChars t).map lowerChar).filter (· ≠ [])

/-- `text.join(' ')` at the `List Char` level. -/
def joinSp : List (List Char) → List Char
  | [] => []
  | [t] => t
  | t :: ts => t ++ ' ' :: joinSp ts

/-- `text.join(' ')` on strings, as used to re-feed the parser. -/
def joinSpace (l : List String) : String := String.mk (joinSp (l.map String.toList))

/-! ## The regex matchers of `parseQuery`

Each matcher tries its pattern at the head of the given suffix and
returns `(wholeMatch, capture)` on success.  All patterns are nonempty.
-/

/-- `/"([^"]+)"/` tried at the head: an opening quote, a maximal nonempty
run of non-quote characters, and a closing quote. -/
def quoteHere : List Char → Option (List Char × List Char)
  | c :: cs =>
    if c = dquoteChar then
      let body := cs.takeWhile (fun x => !(x = dquoteChar))
      if body = [] then none
      else match cs.drop body.length with
        | d :: _ => if d = dquoteChar then some (dquoteChar :: body ++ [dquoteChar], body) else none
        | [] => none
    else none
  | [] => none

/-- The regex `#([a-zA-Z][a-zA-Z0-9_, slash, hyphen]*)` tried at the head. -/
def tagHere : List Char → Option (List Char × List Char)
  | c0 :: c :: cs =>
    if c0 = '#' && isAsciiLetterChar c then
      let tail := cs.takeWhile isTagChar
      some ('#' :: c :: tail, c :: tail)
    else none
  | _ => none

/-- `/ext:(\w+)/i` tried at the head. -/
def extHere (s : List Char) : Option (List Char × List Char) :=
  if leadsAtCI ['e', 'x', 't', ':'] s then
    let w := (s.drop 4).takeWhile isWordChar
    if w = [] then none else some (s.take 4 ++ w, w)
  else none

/-- The regex `(?<!-)path:([^\s]+)` (flag `i`) tried at the head; `prev`
is the character immediately before the current position (lookbehind). -/
def pathIncHere (prev : Option Char) (s : List Char) : Option (List Char × List Char) :=
  if prev = some '-' then none
  else if leadsAtCI ['p', 'a', 't', 'h', ':'] s then
    let w := (s.drop 5).takeWhile (fun c => !(isWsChar c))
    if w = [] then none else some (s.take 5 ++ w, w)
  else none

/-- The regex `-path:([^\s]+)` (flag `i`) tried at the head. -/
def pathExcHere (s : List Char) : Option (List Char × List Char) :=
  if leadsAtCI ['-', 'p', 'a', 't', 'h', ':'] s then
    let w := (s.drop 6).takeWhile (fun c => !(isWsChar c))
    if w = [] then none else some (s.take 6 ++ w, w)
  else none

/-- The regex `-(\w+)` tried at the head. -/
def excludeHere : List Char → Option (List Char × List Char)
  | c0 :: cs =>
    if c0 = '-' then
      let w := cs.takeWhile isWordChar
      if w = [] then none else some ('-' :: w, w)
    else none
  | [] => none

/-- Scan for the first position (≥ 0, relative) at which `here`
succeeds, threading the previous character for lookbehinds. -/
def scanFindPrev (here : Option Char → List Char → Option (List Char × List Char)) :
    Option Char → List Char → Option (Nat × (List Char × List Char))
  | _, [] => none
  | prev, c :: cs =>
    match here prev (c :: cs) with
    | some m => some (0, m)
    | none => (scanFindPrev here (some c) cs).map fun r => (r.1 + 1, r.2)

/-- `regex.exec(s)` with `regex.lastIndex = li`: search for the first
match at a position `≥ li`, returning the absolute match position. -/
def execFrom (here : Option Char → List Char → Option (List Char × List Char))
    (s : List Char) (li : Nat) : Option (Nat × (List Char × List Char)) :=
  let prev := if li = 0 then none else (s.drop (li - 1)).head?
  (scanFindPrev here prev (s.drop li)).map fun r => (li + r.1, r.2)

/-- The `while ((match = re.exec(remaining)) !== null)` extraction loop:
each iteration records `emit match`, advances `lastIndex` past the match
(in the pre-removal string), and removes the first occurrence of the
matched text from the working string.  `fuel = length + 1` suffices. -/
def extractLoop (here : Option Char → List Char → Option (List Char × List Char))
    (emit : List Char × List Char → List Char) :
    Nat → List Char → Nat → List (List Char) → List (List Char) × List Char
  | 0, s, _, acc => (acc, s)
  | fuel + 1, s, li, acc =>
    match execFrom here s li with
    | none => (acc, s)
    | some (pos, m) =>
      extractLoop here emit fuel (removeOnce m.1 s) (pos + m.1.length) (acc ++ [emit m])

/-- The quoted-phrase loop (step 1): the regex executes against the
*original* raw query while removal happens on the working string. -/
def quoteLoop (raw : List Char) :
    Nat → Nat → List Char → List (List Char) → List (List Char) × List Char
  | 0, _, rem, acc => (acc, rem)
  | fuel + 1, li, rem, acc =>
    match execFrom (fun _ s => quoteHere s) raw li with
    | none => (acc, rem)
    | some (pos, m) =>
      quoteLoop raw fuel (pos + m.1.length) (removeOnce m.1 rem) (acc ++ [m.2.map lowerChar])

/-! ## `ParsedQuery` and `parseQuery` -/

/-- `ParsedQuery` (core, `List Char` fields). -/
structure ParsedQueryC where
  text : List (List Char)
  exactTerms : List (List Char)
  tags : List (List Char)
  extensions : List (List Char)
  pathIncludes : List (List Char)
  pathExcludes : List (List Char)
  textExcludes : List (List Char)
deriving DecidableEq

/-- `parseQuery` from `src/search/queryParser.ts`, on `List Char`. -/
def parseQueryCore (raw : List Char) : ParsedQueryC :=
  let r1 := quoteLoop raw (raw.length + 1) 0 raw []
  let r2 := extractLoop (fun _ s => tagHere s) (fun m => m.1) (r1.2.length + 1) r1.2 0 []
  let r3 := extractLoop (fun _ s => extHere s) (fun m => m.2.map lowerChar) (r2.2.length + 1) r2.2 0 []
  let r4 := extractLoop pathIncHere (fun m => m.2.map lowerChar) (r3.2.length + 1) r3.2 0 []
  let r5 := extractLoop (fun _ s => pathExcHere s) (fun m => m.2.map lowerChar) (r4.2.length + 1) r4.2 0 []
  let r6 := extractLoop (fun _ s => excludeHere s) (fun m => m.2.map lowerChar) (r5.2.length + 1) r5.2 0 []
  { text := textTokensOf r6.2
    exactTerms := r1.1
    tags := r2.1
    extensions := r3.1
    pathIncludes := r4.1
    pathExcludes := r5.1
    textExcludes := r6.1 }

/-- `ParsedQuery` with `String` fields, the interface type. -/
structure ParsedQuery where
  text : List String
  exactTerms : List String
  tags : List String
  extensions : List String
  pathIncludes : List String
  pathExcludes : List String
  textExcludes : List String
deriving DecidableEq

/-- `parseQuery(rawQuery)`. -/
def parseQuery (raw : String) : ParsedQuery :=
  let p := parseQueryCore raw.toList
  { text := p.text.map List.asString
    exactTerms := p.exactTerms.map List.asString
    tags := p.tags.map List.asString
    extensions := p.extensions.map List.asString
    pathIncludes := p.pathIncludes.map List.asString
    pathExcludes := p.pathExcludes.map List.asString
    textExcludes := p.textExcludes.map List.asString }

/-! ## `matchesFilters` (Filter Engine, from `src/search/queryParser.ts`) -/

/-- `path.split('.').pop() || ''` — the extension of a (lower-cased) path. -/
def extOfPath (path : List Char) : List Char :=
  jsOr (List.asString ((splitOnCharL '.' path).getLastD [])) "" |>.toList

/-- `matchesFilters(result, parsed, docContent)`: `result` carries `path`
and `id` (the agent passes `{ path: chunk.path, id: chunk.id }`). -/
def matchesFilters (resultPath resultId : String) (parsed : ParsedQuery)
    (docContent : String) : Bool :=
  let path := lowerStr (jsOr resultPath (jsOr resultId "")).toList
  let content := lowerStr docContent.toList
  let ext := extOfPath path
  (decide (parsed.extensions = []) ||
    parsed.extensions.any fun e => ext = e.toList || leadsAt e.toList ext) &&
  (decide (parsed.pathIncludes = []) ||
    parsed.pathIncludes.any fun p => occursIn p.toList path) &&
  (decide (parsed.pathExcludes = []) ||
    !(parsed.pathExcludes.any fun p => occursIn p.toList path)) &&
  (decide (parsed.exactTerms = []) ||
    parsed.exactTerms.all fun t => occursIn t.toList content) &&
  (decide (parsed.textExcludes = []) ||
    !(parsed.textExcludes.any fun t => occursIn t.toList content))

/-! ## The embedding reranker (`searchVaultWithProgress` in `src/agent.ts`)

The external embedding service is an oracle
`embed : String → Option (List ℚ)` (`none` = the call throws after
retries); `Math.sqrt` is an oracle `sqrtFn : ℚ → ℚ`.
-/

/-- A lexical candidate as returned by the worker. -/
structure Candidate where
  id : String
  content : String
  path : String
  score : ℚ
  keywordScore : ℚ
  source : String
deriving DecidableEq

/-- The projection of a candidate taken by the agent before scoring
(`{ id, path, content, keywordScore }`). -/
structure Chunk where
  id : String
  path : String
  content : String
  keywordScore : ℚ
deriving DecidableEq

/-- `candidates.map(doc => ({id, path, content, keywordScore}))`. -/
def candidateChunk (c : Candidate) : Chunk :=
  { id := c.id, path := c.path, content := c.content, keywordScore := c.keywordScore }

/-- A chunk after scoring (`{ ...chunk, finalScore, similarity, chunkLen }`). -/
structure ScoredChunk where
  id : String
  path : String
  content : String
  keywordScore : ℚ
  finalScore : ℚ
  similarity : ℚ
  chunkLen : Nat
deriving DecidableEq

/-- `(chunk.content || "").replace(/\0/g, '').trim()`. -/
def sanitize (s : String) : String :=
  List.asString (trimChars (s.toList.filter fun c => !(c = '\x00')))

/-- `cosineSimilarity(a, b)` from `src/agent.ts`: the loop runs over the
indices of `a`, so `normB` uses only the first `a.length` entries of `b`
(vectors from one embedding model have equal length, where the two
coincide; mismatched longer `b` is truncated, mismatched shorter `b`
yields NaN in JS and is outside this model). -/
def cosineSimilarity (sqrtFn : ℚ → ℚ) (a b : List ℚ) : ℚ :=
  let dotProduct := ((a.zip b).map fun p => p.1 * p.2).sum
  let normA := (a.map fun x => x * x).sum
  let normB := ((b.take a.length).map fun x => x * x).sum
  dotProduct / (sqrtFn normA * sqrtFn normB)

/-- Score one chunk (the body of the batch `Promise.all` in
`searchVaultWithProgress`): sanitize; empty content short-circuits to the
`-100` sentinel without consulting the embedding oracle; a failed
embedding call yields the `-999` sentinel; otherwise fuse
`keywordScore * 0.1 + similarity * 10`. -/
def scoreChunk (embed : String → Option (List ℚ)) (sqrtFn : ℚ → ℚ)
    (queryEmbedding : List ℚ) (chunk : Chunk) : ScoredChunk :=
  let cleanContent := sanitize chunk.content
  if cleanContent = "" then
    { id := chunk.id, path := chunk.path, content := chunk.content
      keywordScore := chunk.keywordScore
      finalScore := -100, similarity := 0, chunkLen := 0 }
  else
    match embed cleanContent with
    | some chunkEmbedding =>
      let similarity := cosineSimilarity sqrtFn queryEmbedding chunkEmbedding
      { id := chunk.id, path := chunk.path, content := chunk.content
        keywordScore := chunk.keywordScore
        finalScore := chunk.keywordScore * 0.1 + similarity * 10
        similarity := similarity, chunkLen := cleanContent.length }
    | none =>
      { id := chunk.id, path := chunk.path, content := chunk.content
        keywordScore := chunk.keywordScore
        finalScore := -999, similarity := 0, chunkLen := cleanContent.length }

/-- The batching loop (`for (let i = 0; i < chunks.length; i += BATCH_SIZE)`),
scoring each slice and concatenating; fuel `length + 1` suffices for any
positive batch size. -/
def scoreBatches (embed : String → Option (List ℚ)) (sqrtFn : ℚ → ℚ)
    (queryEmbedding : List ℚ) (batchSize : Nat) :
    Nat → List Chunk → List ScoredChunk
  | 0, _ => []
  | _ + 1, [] => []
  | fuel + 1, c :: cs =>
    ((c :: cs).take batchSize).map (scoreChunk embed sqrtFn queryEmbedding) ++
      scoreBatches embed sqrtFn queryEmbedding batchSize fuel ((c :: cs).drop batchSize)

/-- `BATCH_SIZE` in `searchVaultWithProgress`. -/
def BATCH_SIZE : Nat := 1

/-- All chunks scored, as accumulated in `scoredChunks`. -/
def rerankScored (embed : String → Option (List ℚ)) (sqrtFn : ℚ → ℚ)
    (queryEmbedding : List ℚ) (chunks : List Chunk) : List ScoredChunk :=
  scoreBatches embed sqrtFn queryEmbedding BATCH_SIZE (chunks.length + 1) chunks

/-- Descending order on `finalScore` (the comparator
`(a, b) => b.finalScore - a.finalScore`). -/
def chunkGE (a b : ScoredChunk) : Prop := b.finalScore ≤ a.finalScore

instance : DecidableRel chunkGE :=
  fun a b => inferInstanceAs (Decidable (b.finalScore ≤ a.finalScore))

instance : IsTotal ScoredChunk chunkGE :=
  ⟨fun a b => (le_total b.finalScore a.finalScore).imp id id⟩

instance : IsTrans ScoredChunk chunkGE :=
  ⟨fun _ _ _ h1 h2 => le_trans h2 h1⟩

/-- `scoredChunks.sort((a, b) => b.finalScore - a.finalScore)` (a stable
sort, as guaranteed by modern engines). -/
def sortChunksDesc (l : List ScoredChunk) : List ScoredChunk :=
  l.insertionSort chunkGE

/-- Does the chunk content contain one of the queried tags
(`chunkLower.includes(tag.toLowerCase())`)? -/
def matchesTag (tags : List String) (c : ScoredChunk) : Bool :=
  tags.any fun tag => occursIn (lowerStr tag.toList) (lowerStr c.content.toList)

/-- `chunk.finalScore *= 100` for tag-matching chunks. -/
def boostChunk (tags : List String) (c : ScoredChunk) : ScoredChunk :=
  if matchesTag tags c then { c with finalScore := c.finalScore * 100 } else c

/-- Step 6 of the pipeline: if tags were queried, boost matching chunks
by `× 100` and re-sort; otherwise leave the list untouched. -/
def tagBoost (tags : List String) (l : List ScoredChunk) : List ScoredChunk :=
  if tags = [] then l else sortChunksDesc (l.map (boostChunk tags))

/-! ## Grouping chunks into ranked documents (step 7) -/

/-- A document-level result (`docMap` entry). -/
structure RankedDoc where
  path : String
  content : String
  keywordScore : ℚ
  finalScore : ℚ
  similarity : ℚ
  chunks : List ScoredChunk
deriving DecidableEq

/-- First insertion of a path into `docMap`. -/
def mkDoc (c : ScoredChunk) : RankedDoc :=
  { path := c.path, content := c.content, keywordScore := c.keywordScore
    finalScore := c.finalScore, similarity := c.similarity, chunks := [c] }

/-- Subsequent chunk with an existing path: push the chunk and, when it
strictly beats the current document score, promote it to representative. -/
def updateDoc (d : RankedDoc) (c : ScoredChunk) : RankedDoc :=
  let d2 := { d with chunks := d.chunks ++ [c] }
  if d.finalScore < c.finalScore then
    { d2 with finalScore := c.finalScore, similarity := c.similarity, content := c.content }
  else d2

/-- One step of the grouping loop; the association list keeps the
insertion order of a JavaScript `Map`. -/
def insertChunkDoc (docs : List RankedDoc) (c : ScoredChunk) : List RankedDoc :=
  if docs.any fun d => d.path = c.path then
    docs.map fun d => if d.path = c.path then updateDoc d c else d
  else docs ++ [mkDoc c]

/-- `docMap` built over a chunk list. -/
def groupChunks (chunks : List ScoredChunk) : List RankedDoc :=
  chunks.foldl insertChunkDoc []

/-- Descending order on document `finalScore`. -/
def docGE (a b : RankedDoc) : Prop := b.finalScore ≤ a.finalScore

instance : DecidableRel docGE :=
  fun a b => inferInstanceAs (Decidable (b.finalScore ≤ a.finalScore))

instance : IsTotal RankedDoc docGE :=
  ⟨fun a b => (le_total b.finalScore a.finalScore).imp id id⟩

instance : IsTrans RankedDoc docGE :=
  ⟨fun _ _ _ h1 h2 => le_trans h2 h1⟩

/-- `Array.from(docMap.values()).sort((a, b) => b.finalScore - a.finalScore)`. -/
def sortDocsDesc (l : List RankedDoc) : List RankedDoc :=
  l.insertionSort docGE

/-- Step 7 end-to-end: top 50 chunks, grouped by path, sorted by best
chunk score, top 20 documents. -/
def topDocsOf (l : List ScoredChunk) : List RankedDoc :=
  (sortDocsDesc (groupChunks (l.take 50))).take 20

/-- Does the parsed query activate the advanced-filter step (step 5)? -/
def hasAdvancedFilters (pq : ParsedQuery) : Bool :=
  !(decide (pq.extensions = [])) || !(decide (pq.pathIncludes = [])) ||
  !(decide (pq.pathExcludes = [])) || !(decide (pq.exactTerms = [])) ||
  !(decide (pq.textExcludes = []))

/-- The terminal `result` event of `searchVaultWithProgress`: either the
ranked documents, or (from the top-level `catch`) the raw unreranked
keyword candidates. -/
inductive SearchOutcome
  | ranked (docs : List RankedDoc)
  | fallback (cands : List Candidate)
deriving DecidableEq

/-- `searchVaultWithProgress(query, parsedQuery)` as a function of the
keyword candidates and the external oracles.  The only statement inside
the `try` block that can throw is the query-embedding call (every
per-chunk embedding failure is caught locally inside the batch);
`embed query = none` therefore lands in the top-level `catch`, which
yields the first 12 unreranked candidates. -/
def searchVault (embed : String → Option (List ℚ)) (sqrtFn : ℚ → ℚ)
    (query : String) (parsedQuery : ParsedQuery) (candidates : List Candidate) :
    SearchOutcome :=
  if candidates = [] then .ranked []
  else
    match embed query with
    | none => .fallback (candidates.take 12)
    | some queryEmbedding =>
      let chunks := candidates.map candidateChunk
      let scoredChunks := rerankScored embed sqrtFn queryEmbedding chunks
      let sorted := sortChunksDesc scoredChunks
      let filteredChunks :=
        if hasAdvancedFilters parsedQuery then
          sorted.filter fun chunk =>
            matchesFilters chunk.path chunk.id parsedQuery chunk.content
        else sorted
      let boosted := tagBoost parsedQuery.tags filteredChunks
      .ranked (topDocsOf boosted)

/-! ## `generateQuery` (intent triage parsing, `src/agent.ts`) -/

/-- `<question>` as characters. -/
def openTagChars : List Char := "<question>".toList

/-- `</question>` as characters. -/
def closeTagChars : List Char := "</question>".toList

/-- `response.match(/<question>([\s\S]*?)<\/question>/)`: the capture of
the leftmost match with a lazy body — the text between the first
`<question>` and the first `</question>` after it.  (If the first
opening tag has no closing tag after it, no later opening tag has one
either, so the whole match fails.) -/
def questionCapture (s : List Char) : Option (List Char) :=
  match findOcc openTagChars s with
  | none => none
  | some i =>
    let afterOpen := s.drop (i + openTagChars.length)
    match findOcc closeTagChars afterOpen with
    | none => none
    | some j => some (afterOpen.take j)

/-- The response-parsing tail of `generateQuery`, as a function of the
chat model's raw output: return the trimmed tag capture when the capture
is truthy (nonempty); otherwise return the sentinel if `not_needed`
occurs anywhere, else the original user query. -/
def generateQuery (response userQuery : String) : String :=
  match questionCapture response.toList with
  | some cap =>
    if cap ≠ [] then List.asString (trimChars cap)
    else if occursInS "not_needed" response then "not_needed" else userQuery
  | none =>
    if occursInS "not_needed" response then "not_needed" else userQuery

/-! ## The worker message handlers

Two implementations exist in the repository: the typed one in
`src/worker/worker.ts` (no CJK segmentation backend in its runtime) and
the jieba-enabled variant.  The MiniSearch library itself is external;
its query-time behaviour is abstracted as an oracle that receives the
tokenizer, the current wall-clock time (used by the recency
`boostDocument`), the indexed documents and the query, and returns
scored ids best-first.  Both handlers pass textually identical search
options, so those are absorbed into the oracle.
-/

/-- The tokenizer type passed to MiniSearch. -/
def Tokenizer : Type := List Char → List (List Char)

/-- The MiniSearch `search` oracle. -/
structure MSDoc where
  id : String
  basename : String
  aliases : String
  path : String
  content : String
  h1 : String
  h2 : String
  h3 : String
  tags : String
  urls : String
  links : String
  mtime : Nat
  frontmatter : List (String × String)
deriving DecidableEq

/-- MiniSearch query behaviour as an oracle over the tokenizer, the
current time, the indexed documents and the query string. -/
def MSSearchFn : Type := Tokenizer → Nat → List MSDoc → String → List (String × ℚ)

/-- What the worker stores in its `documents` map. -/
structure DocInfo where
  title : String
  path : String
  content : String
deriving DecidableEq

/-- The `meta` field of an `index` payload.  Per the equivalence claim's
hypothesis, `filePath` is a defined string; the other string fields use
`""` for the absent/falsy case (JavaScript `||` semantics), `mtime` uses
`0` for the absent/falsy case. -/
structure MetaPayload where
  basename : String
  aliases : String
  filePath : String
  h1 : String
  h2 : String
  h3 : String
  tags : String
  urls : String
  links : String
  mtime : Nat
  frontmatter : List (String × String)
deriving DecidableEq

/-- The four worker commands with their typed payloads. -/
inductive WPayload
  | initCmd
  | indexCmd (docId : String) (content : String) (meta : MetaPayload)
  | deleteCmd (path : String)
  | searchCmd (query : String) (topK : Option Nat)
deriving DecidableEq

/-- A worker request message. -/
structure WMessage where
  id : String
  payload : WPayload
deriving DecidableEq

/-- The `data` field of a successful worker response. -/
inductive WData
  | initData (message : String)
  | indexData (message : String) (docId : String)
  | deleteData (message : String) (count : Nat)
  | searchData (results : List Candidate)
deriving DecidableEq

/-- The worker response envelope. -/
structure WResponse where
  id : String
  success : Bool
  data : Option WData
  error : Option String
deriving DecidableEq

/-- Worker-held state: the MiniSearch instance (`initialized` models the
`miniSearch === null` check, `msDocs` its indexed documents in insertion
order) and the `documents` map (association list in insertion order). -/
structure WorkerState where
  initialized : Bool
  msDocs : List MSDoc
  documents : List (String × DocInfo)
deriving DecidableEq

/-- The initial worker state (both modules start with `miniSearch = null`
and an empty `documents` map). -/
def initWorkerState : WorkerState :=
  { initialized := false, msDocs := [], documents := [] }

/-- JavaScript `Map.prototype.set`: replace in place or append. -/
def setAssoc (l : List (String × DocInfo)) (k : String) (v : DocInfo) :
    List (String × DocInfo) :=
  if l.any fun e => e.1 = k then l.map fun e => if e.1 = k then (k, v) else e
  else l ++ [(k, v)]

/-- JavaScript `Map.prototype.get`: first entry with the key. -/
def lookupAssoc (l : List (String × DocInfo)) (k : String) : Option DocInfo :=
  (l.find? fun e => e.1 = k).map Prod.snd

/-- `meta.filePath.split('/').pop()?.replace(/\.md$/, '')`. -/
def baseFromPath (filePath : String) : String :=
  let last := (splitOnCharL '/' filePath.toList).getLastD []
  if last.reverse.take 3 = ['d', 'm', '.'] then
    List.asString (last.take (last.length - 3))
  else List.asString last

/-- `meta.basename || meta.filePath.split('/').pop()?.replace(/\.md$/, '') || 'Untitled'`
(identical in both worker modules once `filePath` is a defined string). -/
def basenameOf (meta : MetaPayload) : String :=
  jsOr meta.basename (jsOr (baseFromPath meta.filePath) "Untitled")

/-- MiniSearch `has`/`replace`/`add` on an `index` command: replace in
place when the id is present, append otherwise. -/
def msUpsert (docs : List MSDoc) (doc : MSDoc) : List MSDoc :=
  if docs.any fun d => d.id = doc.id then
    docs.map fun d => if d.id = doc.id then doc else d
  else docs ++ [doc]

/-! ### The custom tokenizer

The helper code (`removeDiacritics`, `splitCamelCase`, `splitHyphens`,
`hasCJK`, the base scan and the expansion step) is textually identical in
the two worker modules; `removeDiacritics` delegates to Unicode NFD
normalization, modelled as an oracle `rd`. -/

/-- A CJK character per the worker's range test (U+4E00–U+9FA5). -/
def isCJKChar (c : Char) : Bool := '一' ≤ c && c ≤ '龥'

/-- `hasCJK(str)`. -/
def hasCJK (s : List Char) : Bool := s.any isCJKChar

/-- Step 1 of the tokenizer: CJK characters become single-character
tokens (flushing the current run), whitespace flushes the current run,
everything else accumulates.  `cur` is the current run, reversed. -/
def baseTokensGo (cur : List Char) : List Char → List (List Char)
  | [] => if cur = [] then [] else [cur.reverse]
  | c :: cs =>
    if isCJKChar c then
      (if cur = [] then [] else [cur.reverse]) ++ [c] :: baseTokensGo [] cs
    else if isWsChar c then
      (if cur = [] then [] else [cur.reverse]) ++ baseTokensGo [] cs
    else baseTokensGo (c :: cur) cs

/-- Step 1 of the tokenizer on a whole string. -/
def baseTokens (s : List Char) : List (List Char) := baseTokensGo [] s

/-- `word.split(/(?=[A-Z])/)`: split before every uppercase letter that
is not at the very start. -/
def splitCamelGo (cur : List Char) : List Char → List (List Char)
  | [] => [cur.reverse]
  | c :: cs =>
    if isUpperChar c && !(cur = []) then cur.reverse :: splitCamelGo [c] cs
    else splitCamelGo (c :: cur) cs

/-- `splitCamelCase(word)`. -/
def splitCamelCase (w : List Char) : List (List Char) :=
  if w.length < 3 then [w]
  else
    let parts := splitCamelGo [] w
    if parts.length > 1 then parts else [w]

/-- `splitHyphens(word)`. -/
def splitHyphens (w : List Char) : List (List Char) :=
  if w.any fun c => c = '-' then splitOnCharL '-' w else [w]

/-- Step 3 of the tokenizer: emit the folded token, and for non-CJK
tokens also the camelCase and hyphen splits when they are proper splits. -/
def expandTokens (rd : List Char → List Char) (toks : List (List Char)) :
    List (List Char) :=
  toks.flatMap fun token =>
    rd (lowerStr token) ::
      (if hasCJK token then []
       else
        (let camelSplits := splitCamelCase token
         if camelSplits.length > 1 then camelSplits.map fun t => rd (lowerStr t) else []) ++
        (let hyphenSplits := splitHyphens token
         if hyphenSplits.length > 1 then hyphenSplits.map fun t => rd (lowerStr t) else []))

/-- `[...new Set(expandedTokens.filter(Boolean))]`: drop empties, then
de-duplicate keeping first occurrences. -/
def dedupFirstGo (seen : List (List Char)) : List (List Char) → List (List Char)
  | [] => []
  | t :: ts =>
    if seen.contains t then dedupFirstGo seen ts
    else t :: dedupFirstGo (t :: seen) ts

/-- Final token cleanup. -/
def finishTokens (toks : List (List Char)) : List (List Char) :=
  dedupFirstGo [] (toks.filter fun t => !(t = []))

/-- The tokenizer of the jieba-enabled worker module: step 2 re-segments
CJK-containing tokens through the optional backend (search mode). -/
def tokenizeJieba (rd : List Char → List Char)
    (jieba : Option (List Char → List (List Char))) : Tokenizer :=
  fun s =>
    let tokens := baseTokens s
    let processedTokens :=
      match jieba with
      | some seg => tokens.flatMap fun t => if hasCJK t then seg t else [t]
      | none => tokens
    finishTokens (expandTokens rd processedTokens)

/-- The tokenizer of `src/worker/worker.ts` (step 2: no external
segmenter available in the worker runtime). -/
def tokenizeTyped (rd : List Char → List Char) : Tokenizer :=
  fun s =>
    let tokens := baseTokens s
    let processedTokens := tokens
    finishTokens (expandTokens rd processedTokens)

/-! ### The two message handlers -/

/-- The handler of the jieba-enabled worker module (`self.onmessage` of
the variant module), for one message; `now` is `Date.now()` during this
message. -/
def workerHandleJieba (rd : List Char → List Char)
    (jieba : Option (List Char → List (List Char))) (msSearch : MSSearchFn)
    (now : Nat) (st : WorkerState) (msg : WMessage) : WorkerState × WResponse :=
  match msg.payload with
  | .initCmd =>
    ({ st with initialized := true },
     ⟨msg.id, true, some (.initData "Worker initialized"), none⟩)
  | .indexCmd docId content meta =>
    let doc : MSDoc :=
      { id := docId
        basename := basenameOf meta
        aliases := jsOr meta.aliases ""
        path := meta.filePath
        content := content
        h1 := jsOr meta.h1 "", h2 := jsOr meta.h2 "", h3 := jsOr meta.h3 ""
        tags := jsOr meta.tags "", urls := jsOr meta.urls "", links := jsOr meta.links ""
        mtime := if meta.mtime = 0 then now else meta.mtime
        frontmatter := meta.frontmatter }
    ({ st with initialized := true
               msDocs := msUpsert st.msDocs doc
               documents := setAssoc st.documents docId
                 ⟨doc.basename, doc.path, content⟩ },
     ⟨msg.id, true, some (.indexData "Indexed" docId), none⟩)
  | .deleteCmd path =>
    let idsToDelete := (st.documents.filter fun e => e.2.path = path).map Prod.fst
    ({ st with initialized := true
               msDocs := st.msDocs.filter fun d => !(idsToDelete.contains d.id)
               documents := st.documents.filter fun e => !(idsToDelete.contains e.1) },
     ⟨msg.id, true, some (.deleteData "Deleted" idsToDelete.length), none⟩)
  | .searchCmd query topK =>
    let k := topK.getD 30
    let miniResults := msSearch (tokenizeJieba rd jieba) now st.msDocs query
    let candidates : List Candidate :=
      (miniResults.take k).map fun r =>
        match lookupAssoc st.documents r.1 with
        | some info => ⟨r.1, info.content, info.path, r.2, r.2, "keyword"⟩
        | none => ⟨r.1, "Unknown", r.1, r.2, r.2, "keyword"⟩
    ({ st with initialized := true },
     ⟨msg.id, true, some (.searchData candidates), none⟩)

/-- The handler of `src/worker/worker.ts` (`self.onmessage`), for one
message. -/
def workerHandleTyped (rd : List Char → List Char) (msSearch : MSSearchFn)
    (now : Nat) (st : WorkerState) (msg : WMessage) : WorkerState × WResponse :=
  match msg.payload with
  | .initCmd =>
    ({ st with initialized := true },
     ⟨msg.id, true, some (.initData "Worker initialized"), none⟩)
  | .indexCmd docId content meta =>
    let doc : MSDoc :=
      { id := docId
        basename := basenameOf meta
        aliases := jsOr meta.aliases ""
        path := jsOr meta.filePath ""
        content := content
        h1 := jsOr meta.h1 "", h2 := jsOr meta.h2 "", h3 := jsOr meta.h3 ""
        tags := jsOr meta.tags "", urls := jsOr meta.urls "", links := jsOr meta.links ""
        mtime := if meta.mtime = 0 then now else meta.mtime
        frontmatter := meta.frontmatter }
    ({ st with initialized := true
               msDocs := msUpsert st.msDocs doc
               documents := setAssoc st.documents docId
                 ⟨doc.basename, doc.path, content⟩ },
     ⟨msg.id, true, some (.indexData "Indexed" docId), none⟩)
  | .deleteCmd path =>
    let idsToDelete := (st.documents.filter fun e => e.2.path = path).map Prod.fst
    ({ st with initialized := true
               msDocs := st.msDocs.filter fun d => !(idsToDelete.contains d.id)
               documents := st.documents.filter fun e => !(idsToDelete.contains e.1) },
     ⟨msg.id, true, some (.deleteData "Deleted" idsToDelete.length), none⟩)
  | .searchCmd query topK =>
    let k := topK.getD 30
    let miniResults := msSearch (tokenizeTyped rd) now st.msDocs query
    let candidates : List Candidate :=
      (miniResults.take k).map fun r =>
        match lookupAssoc st.documents r.1 with
        | some info => ⟨r.1, info.content, info.path, r.2, r.2, "keyword"⟩
        | none => ⟨r.1, "Unknown", r.1, r.2, r.2, "keyword"⟩
    ({ st with initialized := true },
     ⟨msg.id, true, some (.searchData candidates), none⟩)

/-- Run a handler over a message sequence (each message paired with its
`Date.now()`), collecting the response sequence. -/
def runWorker (handle : Nat → WorkerState → WMessage → WorkerState × WResponse) :
    List (Nat × WMessage) → WorkerState → List WResponse
  | [], _ => []
  | (now, m) :: rest, st =>
    let r := handle now st m
    r.2 :: runWorker handle rest r.1

/-! ## Basic pipeline lemmas -/

/-- With `BATCH_SIZE = 1` and sufficient fuel, the batching loop scores
every chunk, in order. -/
theorem scoreBatches_one_eq_map (embed : String → Option (List ℚ)) (sqrtFn : ℚ → ℚ)
    (qEmb : List ℚ) :
    ∀ (fuel : Nat) (chunks : List Chunk), chunks.length ≤ fuel →
      scoreBatches embed sqrtFn qEmb 1 fuel chunks =
        chunks.map (scoreChunk embed sqrtFn qEmb)
  | 0, [], _ => rfl
  | _ + 1, [], _ => rfl
  | fuel + 1, c :: cs, h => by
    have ih := scoreBatches_one_eq_map embed sqrtFn qEmb fuel cs
      (Nat.le_of_succ_le_succ h)
    simp [scoreBatches, ih]

/-- `rerankScored` is exactly the pointwise scoring map. -/
theorem rerankScored_eq_map (embed : String → Option (List ℚ)) (sqrtFn : ℚ → ℚ)
    (qEmb : List ℚ) (chunks : List Chunk) :
    rerankScored embed sqrtFn qEmb chunks = chunks.map (scoreChunk embed sqrtFn qEmb) :=
  scoreBatches_one_eq_map embed sqrtFn qEmb (chunks.length + 1) chunks (Nat.le_succ _)

/-- C1: a chunk that sanitizes to empty gets `finalScore = -100`,
`similarity = 0` with no embedding call (the result does not depend on
the embedding oracle at all); a chunk whose embedding call fails gets
`finalScore = -999`, `similarity = 0`; and in all cases every chunk of
the rerank is scored and present at its position in the result, so one
faulty chunk never aborts the batch or drops successful chunks. -/
theorem rerank_isolates_faulty_chunks
    (embed embed2 : String → Option (List ℚ)) (sqrtFn sqrtFn2 : ℚ → ℚ)
    (qEmb qEmb2 : List ℚ) (chunks : List Chunk) (i : Nat) (hi : i < chunks.length) :
    (rerankScored embed sqrtFn qEmb chunks).length = chunks.length ∧
    (rerankScored embed sqrtFn qEmb chunks)[i]? =
      some (scoreChunk embed sqrtFn qEmb chunks[i]) ∧
    (sanitize chunks[i].content = "" →
      (rerankScored embed sqrtFn qEmb chunks)[i]? =
        some { id := chunks[i].id, path := chunks[i].path
               content := chunks[i].content, keywordScore := chunks[i].keywordScore
               finalScore := -100, similarity := 0, chunkLen := 0 } ∧
      (rerankScored embed2 sqrtFn2 qEmb2 chunks)[i]? =
        (rerankScored embed sqrtFn qEmb chunks)[i]?) ∧
    (sanitize chunks[i].content ≠ "" →
      embed (sanitize chunks[i].content) = none →
      (rerankScored embed sqrtFn qEmb chunks)[i]? =
        some { id := chunks[i].id, path := chunks[i].path
               content := chunks[i].content, keywordScore := chunks[i].keywordScore
               finalScore := -999, similarity := 0
               chunkLen := (sanitize chunks[i].content).length }) := by
  rw [rerankScored_eq_map, rerankScored_eq_map]
  refine ⟨by simp, ?_, fun hempty => ⟨?_, ?_⟩, fun hne hfail => ?_⟩
  · simp [List.getElem?_eq_getElem, hi]
  · simp only [List.getElem?_map, List.getElem?_eq_getElem hi, Option.map_some]
    simp [scoreChunk, hempty]
  · simp only [List.getElem?_map, List.getElem?_eq_getElem hi, Option.map_some]
    simp [scoreChunk, hempty]
  · simp only [List.getElem?_map, List.getElem?_eq_getElem hi, Option.map_some]
    simp [scoreChunk, hne, hfail]

/-- Witness for C1 at concrete inputs: a batch of three chunks, the
first sanitizing to empty (its score is the `-100` sentinel and is
independent of the oracles), the second failing its embedding call
(scored `-999`), the third scored normally — all three present. -/
theorem rerank_isolates_faulty_chunks_witness :
    sanitize "\x00 " = "" ∧
    (rerankScored (fun s => if s = "bad" then none else some [1])
        (fun q => q) [1] [⟨"c0", "p0", "\x00 ", 1⟩, ⟨"c1", "p1", "bad", 2⟩, ⟨"c2", "p2", "ok", 3⟩]).length = 3 ∧
    (rerankScored (fun s => if s = "bad" then none else some [1])
        (fun q => q) [1] [⟨"c0", "p0", "\x00 ", 1⟩, ⟨"c1", "p1", "bad", 2⟩, ⟨"c2", "p2", "ok", 3⟩])[0]? =
      some ⟨"c0", "p0", "\x00 ", 1, -100, 0, 0⟩ ∧
    (rerankScored (fun _ => some [5, 5]) (fun _ => 7) [3]
        [⟨"c0", "p0", "\x00 ", 1⟩, ⟨"c1", "p1", "bad", 2⟩, ⟨"c2", "p2", "ok", 3⟩])[0]? =
      (rerankScored (fun s => if s = "bad" then none else some [1])
        (fun q => q) [1] [⟨"c0", "p0", "\x00 ", 1⟩, ⟨"c1", "p1", "bad", 2⟩, ⟨"c2", "p2", "ok", 3⟩])[0]? ∧
    (rerankScored (fun s => if s = "bad" then none else some [1])
        (fun q => q) [1] [⟨"c0", "p0", "\x00 ", 1⟩, ⟨"c1", "p1", "bad", 2⟩, ⟨"c2", "p2", "ok", 3⟩])[1]? =
      some ⟨"c1", "p1", "bad", 2, -999, 0, 3⟩ := by
  have h := rerank_isolates_faulty_chunks
    (fun s => if s = "bad" then none else some [1]) (fun _ => some [5, 5])
    (fun q => q) (fun _ => 7) [1] [3]
    [⟨"c0", "p0", "\x00 ", 1⟩, ⟨"c1", "p1", "bad", 2⟩, ⟨"c2", "p2", "ok", 3⟩]
    0 (by decide)
  have h1 := rerank_isolates_faulty_chunks
    (fun s => if s = "bad" then none else some [1]) (fun _ => some [5, 5])
    (fun q => q) (fun _ => 7) [1] [3]
    [⟨"c0", "p0", "\x00 ", 1⟩, ⟨"c1", "p1", "bad", 2⟩, ⟨"c2", "p2", "ok", 3⟩]
    1 (by decide)
  refine ⟨by decide, h.1, (h.2.2.1 (by decide)).1, (h.2.2.1 (by decide)).2, ?_⟩
  exact h1.2.2.2 (by decide) (by decide)

/-- C2: a normally scored chunk (nonempty sanitized content, successful
embedding call) satisfies the fusion invariant
`finalScore = keywordScore * 0.1 + similarity * 10`, with `similarity`
the cosine of the query and chunk embeddings; in particular
`keywordScore = 2` and `similarity = 0.5` give `finalScore = 5.2`. -/
theorem fusion_formula (embed : String → Option (List ℚ)) (sqrtFn : ℚ → ℚ)
    (qEmb : List ℚ) (c : Chunk) (v : List ℚ)
    (hne : sanitize c.content ≠ "") (hemb : embed (sanitize c.content) = some v) :
    (scoreChunk embed sqrtFn qEmb c).finalScore =
      c.keywordScore * 0.1 + (scoreChunk embed sqrtFn qEmb c).similarity * 10 ∧
    (scoreChunk embed sqrtFn qEmb c).similarity = cosineSimilarity sqrtFn qEmb v ∧
    (c.keywordScore = 2 → cosineSimilarity sqrtFn qEmb v = 0.5 →
      (scoreChunk embed sqrtFn qEmb c).finalScore = 5.2) := by
  refine ⟨?_, ?_, fun hk hs => ?_⟩ <;> simp only [scoreChunk, hne, if_neg hne, hemb]
  · rfl
  · rfl
  · rw [hk, hs]; norm_num

/-- Witness for C2: query embedding `[1,0,0,0]` and chunk embedding
`[1,1,1,1]` have cosine similarity exactly `1/2`; with keyword score `2`
the fused score is `5.2`. -/
theorem fusion_formula_witness :
    sanitize "hello" ≠ "" ∧
    cosineSimilarity (fun q => if q = 1 then 1 else if q = 4 then 2 else 0)
      [1, 0, 0, 0] [1, 1, 1, 1] = 0.5 ∧
    (scoreChunk (fun _ => some [1, 1, 1, 1])
      (fun q => if q = 1 then 1 else if q = 4 then 2 else 0)
      [1, 0, 0, 0] ⟨"c", "p", "hello", 2⟩).finalScore = 5.2 := by
  have hcos : cosineSimilarity (fun q => if q = 1 then 1 else if q = 4 then 2 else 0)
      [1, 0, 0, 0] [1, 1, 1, 1] = 0.5 := by norm_num [cosineSimilarity]
  have h := fusion_formula (fun _ => some [1, 1, 1, 1])
    (fun q => if q = 1 then 1 else if q = 4 then 2 else 0)
    [1, 0, 0, 0] ⟨"c", "p", "hello", 2⟩ [1, 1, 1, 1] (by decide) rfl
  exact ⟨by decide, hcos, h.2.2 rfl hcos⟩

/-- C4: when the query-embedding call fails — the only statement of
rerank steps 3–9 that can throw, since per-item failures are caught
inside the batch — the top-level `catch` yields the first 12 unreranked
lexical candidates in keyword order instead of propagating. -/
theorem rerank_catch_falls_back (embed : String → Option (List ℚ)) (sqrtFn : ℚ → ℚ)
    (query : String) (pq : ParsedQuery) (candidates : List Candidate)
    (hne : candidates ≠ []) (hfail : embed query = none) :
    searchVault embed sqrtFn query pq candidates = .fallback (candidates.take 12) := by
  unfold searchVault
  rw [if_neg hne, hfail]

/-- Witness for C4: a failing query embedding over two candidates
degrades to exactly those two candidates, in order. -/
theorem rerank_catch_falls_back_witness :
    searchVault (fun _ => none) (fun q => q) "q" ⟨[], [], [], [], [], [], []⟩
      [⟨"a", "ca", "pa", 1, 1, "keyword"⟩, ⟨"b", "cb", "pb", 2, 2, "keyword"⟩] =
      .fallback ([⟨"a", "ca", "pa", 1, 1, "keyword"⟩, ⟨"b", "cb", "pb", 2, 2, "keyword"⟩].take 12) :=
  rerank_catch_falls_back (fun _ => none) (fun q => q) "q" ⟨[], [], [], [], [], [], []⟩
    [⟨"a", "ca", "pa", 1, 1, "keyword"⟩, ⟨"b", "cb", "pb", 2, 2, "keyword"⟩]
    (by decide) rfl

/-- C7: the documented example query parses to exactly the claimed
facets; in particular `-path:bar` is consumed by the path-exclusion rule
(running before the generic `-word` rule), so `textExcludes` holds only
`x`. -/
theorem parseQuery_example :
    parseQuery "\"a b\" #t1 ext:md path:foo -path:bar -x y z" =
      ⟨["y", "z"], ["a b"], ["#t1"], ["md"], ["foo"], ["bar"], ["x"]⟩ := by
  decide

/-- Counterexample for C6: `parseQuery` is *not* idempotent on its own
emitted `text` field.  Parsing `#a #b` extracts only `#a` (the tag
regex's `lastIndex` persists while the working string shrinks, so `#b`
is skipped and lands in `text`); re-parsing `text.join(' ') = "#b"`
turns it into a tag, changing `text` and producing a nonempty facet. -/
theorem parseQuery_not_idempotent_on_text :
    (parseQuery "#a #b").text = ["#b"] ∧
    (parseQuery (joinSpace (parseQuery "#a #b").text)).text ≠ (parseQuery "#a #b").text ∧
    (parseQuery (joinSpace (parseQuery "#a #b").text)).tags ≠ [] := by
  decide

/-- Counterexample for C5: with equal *negative* pre-boost scores, the
tag-matching chunk is boosted `× 100` downwards and ranks strictly
*below* the non-matching chunk. -/
theorem tag_boost_not_always_above :
    matchesTag ["#t"] ⟨"1", "p1", "#t", 1, -1, 0, 2⟩ = true ∧
    matchesTag ["#t"] ⟨"2", "p2", "zz", 1, -1, 0, 2⟩ = false ∧
    tagBoost ["#t"] [⟨"1", "p1", "#t", 1, -1, 0, 2⟩, ⟨"2", "p2", "zz", 1, -1, 0, 2⟩] =
      [⟨"2", "p2", "zz", 1, -1, 0, 2⟩, ⟨"1", "p1", "#t", 1, -100, 0, 2⟩] := by
  have h1 : matchesTag ["#t"] ⟨"1", "p1", "#t", 1, -1, 0, 2⟩ = true := by decide
  have h2 : matchesTag ["#t"] ⟨"2", "p2", "zz", 1, -1, 0, 2⟩ = false := by decide
  refine ⟨h1, h2, ?_⟩
  norm_num [tagBoost, boostChunk, h1, h2, sortChunksDesc, List.insertionSort,
    List.orderedInsert, chunkGE]

/-- Counterexample for C9: when the `<question>` tag is present but its
content is empty, the capture is falsy in JavaScript, so the code falls
back to the original query instead of returning the (empty) tag
content. -/
theorem generateQuery_empty_capture_falls_back :
    questionCapture ("<question></question>" : String).toList = some [] ∧
    generateQuery "<question></question>" "orig" = "orig" := by
  decide

/-! ## C3: grouping invariants -/

/-- The invariant of one `docMap` entry: its chunk list is nonempty, the
document score bounds every chunk score, and the representative fields
(`finalScore`, `content`, `similarity`) come from the *first* chunk, in
encounter order, attaining the maximum (every earlier chunk scores
strictly lower). -/
def DocInv (d : RankedDoc) : Prop :=
  ∃ i, ∃ hi : i < d.chunks.length,
    (d.chunks[i].finalScore = d.finalScore ∧ d.chunks[i].content = d.content ∧
      d.chunks[i].similarity = d.similarity) ∧
    (∀ c ∈ d.chunks, c.finalScore ≤ d.finalScore) ∧
    (∀ j, ∀ hj : j < d.chunks.length, j < i → d.chunks[j].finalScore < d.finalScore)

theorem docInv_mkDoc (c : ScoredChunk) : DocInv (mkDoc c) := by
  refine ⟨0, by simp [mkDoc], ⟨rfl, rfl, rfl⟩, ?_, ?_⟩
  · intro x hx
    simp only [mkDoc, List.mem_singleton] at hx
    exact hx ▸ le_refl _
  · intro j hj hj0
    omega

theorem updateDoc_path (d : RankedDoc) (c : ScoredChunk) :
    (updateDoc d c).path = d.path := by
  unfold updateDoc
  split <;> rfl

theorem docInv_updateDoc (d : RankedDoc) (c : ScoredChunk) (h : DocInv d) :
    DocInv (updateDoc d c) := by
  obtain ⟨i, hi, ⟨hf, hc, hs⟩, hle, hlt⟩ := h
  unfold updateDoc
  by_cases hgt : d.finalScore < c.finalScore
  · rw [if_pos hgt]
    refine ⟨d.chunks.length, by simp, ⟨?_, ?_, ?_⟩, ?_, ?_⟩
    · simp
    · simp
    · simp
    · intro x hx
      rcases List.mem_append.mp hx with hx | hx
      · exact le_trans (hle x hx) (le_of_lt hgt)
      · rw [List.mem_singleton] at hx
        exact hx ▸ le_refl _
    · intro j hj hjlen
      simp only
      rw [List.getElem_append_left hjlen]
      exact lt_of_le_of_lt (hle _ (List.getElem_mem hjlen)) hgt
  · rw [if_neg hgt]
    push_neg at hgt
    have hilen : i < (d.chunks ++ [c]).length := by simp; omega
    refine ⟨i, hilen, ⟨?_, ?_, ?_⟩, ?_, ?_⟩
    · simpa [List.getElem_append_left hi] using hf
    · simpa [List.getElem_append_left hi] using hc
    · simpa [List.getElem_append_left hi] using hs
    · intro x hx
      rcases List.mem_append.mp hx with hx | hx
      · exact hle x hx
      · rw [List.mem_singleton] at hx
        exact hx ▸ hgt
    · intro j hj hji
      have hjlen : j < d.chunks.length := lt_trans hji hi
      simp only
      rw [List.getElem_append_left hjlen]
      exact hlt j hjlen hji

theorem docInv_insertChunkDoc (docs : List RankedDoc) (c : ScoredChunk)
    (h : ∀ d ∈ docs, DocInv d) : ∀ d ∈ insertChunkDoc docs c, DocInv d := by
  unfold insertChunkDoc
  split
  · intro d hd
    rw [List.mem_map] at hd
    obtain ⟨d0, hd0, rfl⟩ := hd
    by_cases hp : d0.path = c.path
    · rw [if_pos hp]
      exact docInv_updateDoc d0 c (h d0 hd0)
    · rw [if_neg hp]
      exact h d0 hd0
  · intro d hd
    rcases List.mem_append.mp hd with hd | hd
    · exact h d hd
    · rw [List.mem_singleton] at hd
      exact hd ▸ docInv_mkDoc c

theorem docInv_foldl : ∀ (l : List ScoredChunk) (acc : List RankedDoc),
    (∀ d ∈ acc, DocInv d) → ∀ d ∈ List.foldl insertChunkDoc acc l, DocInv d
  | [], _, h => h
  | c :: cs, acc, h =>
    docInv_foldl cs (insertChunkDoc acc c) (docInv_insertChunkDoc acc c h)

theorem insertChunkDoc_map_path (docs : List RankedDoc) (c : ScoredChunk) :
    (insertChunkDoc docs c).map RankedDoc.path =
      if docs.any fun d => d.path = c.path then docs.map RankedDoc.path
      else docs.map RankedDoc.path ++ [c.path] := by
  unfold insertChunkDoc
  split
  · rw [List.map_map]
    refine List.map_congr_left fun d _ => ?_
    by_cases hp : d.path = c.path
    · simp [hp, updateDoc_path]
    · simp [hp]
  · simp [mkDoc]

theorem nodup_paths_foldl : ∀ (l : List ScoredChunk) (acc : List RankedDoc),
    ((acc.map RankedDoc.path).Nodup) →
    ((List.foldl insertChunkDoc acc l).map RankedDoc.path).Nodup
  | [], _, h => h
  | c :: cs, acc, h => by
    refine nodup_paths_foldl cs (insertChunkDoc acc c) ?_
    by_cases hany : acc.any fun d => d.path = c.path
    · rw [insertChunkDoc_map_path, if_pos hany]
      exact h
    · rw [insertChunkDoc_map_path, if_neg hany]
      refine (List.nodup_append).mpr ⟨h, List.nodup_singleton _, ?_⟩
      intro p hp hpc
      rw [List.mem_singleton] at hpc
      rw [List.mem_map] at hp
      obtain ⟨d, hd, rfl⟩ := hp
      simp only [List.any_eq_true, decide_eq_true_eq, not_exists, not_and] at hany
      exact hany d hd hpc

/-- C3: after grouping the top 50 chunks by path, there is exactly one
`RankedDoc` per distinct path (the output paths are pairwise distinct),
each document's `finalScore` is the maximum over its chunks with the
representative fields taken from the first max-scoring chunk in
encounter order, the documents are sorted by score descending, and at
most 20 are returned; two chunks with one path and scores 3 and 7
collapse to a single document scored 7 carrying the 7-chunk's content. -/
theorem group_by_doc (l : List ScoredChunk) :
    ((topDocsOf l).map RankedDoc.path).Nodup ∧
    (∀ d ∈ topDocsOf l, DocInv d) ∧
    List.Sorted docGE (topDocsOf l) ∧
    (topDocsOf l).length ≤ 20 ∧
    topDocsOf [⟨"i1", "a", "three", 1, 3, 0, 5⟩, ⟨"i2", "a", "seven", 1, 7, 0, 5⟩] =
      [⟨"a", "seven", 1, 7, 0,
        [⟨"i1", "a", "three", 1, 3, 0, 5⟩, ⟨"i2", "a", "seven", 1, 7, 0, 5⟩]⟩] := by
  refine ⟨?_, ?_, ?_, ?_, ?_⟩
  · have hg : ((groupChunks (l.take 50)).map RankedDoc.path).Nodup :=
      nodup_paths_foldl (l.take 50) [] (by simp)
    have hperm : List.Perm (sortDocsDesc (groupChunks (l.take 50)))
        (groupChunks (l.take 50)) :=
      List.perm_insertionSort docGE _
    have hs : ((sortDocsDesc (groupChunks (l.take 50))).map RankedDoc.path).Nodup :=
      ((hperm.map RankedDoc.path).nodup_iff).mpr hg
    exact hs.sublist ((List.take_sublist _ _).map RankedDoc.path)
  · intro d hd
    have hd2 : d ∈ sortDocsDesc (groupChunks (l.take 50)) :=
      List.take_subset _ _ hd
    have hd3 : d ∈ groupChunks (l.take 50) :=
      (List.mem_insertionSort docGE).mp hd2
    exact docInv_foldl (l.take 50) [] (by simp) d hd3
  · exact List.Pairwise.sublist (List.take_sublist _ _)
      (List.sorted_insertionSort docGE _)
  · exact List.length_take_le _ _
  · norm_num [topDocsOf, groupChunks, insertChunkDoc, mkDoc, updateDoc, sortDocsDesc,
      List.insertionSort, List.orderedInsert]

/-- C5 (amended): a queried-tag match multiplies `finalScore` by 100 and
a non-match leaves the chunk untouched; consequently, after the re-sort,
a chunk matching a queried tag ranks strictly above an otherwise
identical chunk with the same *positive* pre-boost `finalScore` that
does not match: every position of the boosted matching chunk precedes
every position of the non-matching chunk.  (For non-positive scores the
×100 boost pushes the matching chunk down, see the counterexample.) -/
theorem tag_boost_ranks_matching_above
    (tags : List String) (l : List ScoredChunk) (c1 c2 : ScoredChunk) (i j : Nat)
    (ht : tags ≠ []) (h1 : matchesTag tags c1 = true) (h2 : matchesTag tags c2 = false)
    (heq : c1.finalScore = c2.finalScore) (hpos : 0 < c1.finalScore)
    (hgi : (tagBoost tags l)[i]? = some (boostChunk tags c1))
    (hgj : (tagBoost tags l)[j]? = some c2) :
    (∀ c, matchesTag tags c = true → (boostChunk tags c).finalScore = c.finalScore * 100) ∧
    (∀ c, matchesTag tags c = false → boostChunk tags c = c) ∧
    i < j := by
  refine ⟨fun c hc => by simp [boostChunk, hc], fun c hc => by simp [boostChunk, hc], ?_⟩
  obtain ⟨hi, hgi⟩ := List.getElem?_eq_some_iff.mp hgi
  obtain ⟨hj, hgj⟩ := List.getElem?_eq_some_iff.mp hgj
  have hsorted : List.Sorted chunkGE (tagBoost tags l) := by
    unfold tagBoost
    rw [if_neg ht]
    exact List.sorted_insertionSort chunkGE _
  have hb1 : (boostChunk tags c1).finalScore = c1.finalScore * 100 := by
    simp [boostChunk, h1]
  rcases lt_trichotomy i j with hij | hij | hij
  · exact hij
  · exfalso
    subst hij
    rw [hgi] at hgj
    have : c1.finalScore * 100 = c2.finalScore := by rw [← hb1, hgj]
    rw [← heq] at this
    linarith
  · exfalso
    have := hsorted.rel_get_of_lt (a := ⟨j, hj⟩) (b := ⟨i, hi⟩) hij
    simp only [List.get_eq_getElem, hgi, hgj] at this
    unfold chunkGE at this
    rw [hb1, heq] at this
    have h2f : c2.finalScore * 100 ≤ c2.finalScore := this
    rw [← heq] at h2f
    linarith

/-- Witness for the amended C5: two chunks with equal positive pre-boost
score 1, only the first matching `#t`; after the boost and re-sort the
matching chunk sits at index 0, strictly above the non-matching chunk at
index 1. -/
theorem tag_boost_ranks_matching_above_witness :
    (boostChunk ["#t"] ⟨"1", "p1", "#t", 1, 1, 0, 2⟩).finalScore =
      (1 : ℚ) * 100 ∧ (0 : Nat) < 1 := by
  have h1 : matchesTag ["#t"] ⟨"1", "p1", "#t", 1, 1, 0, 2⟩ = true := by decide
  have h2 : matchesTag ["#t"] ⟨"2", "p2", "zz", 1, 1, 0, 2⟩ = false := by decide
  have hb : boostChunk ["#t"] ⟨"1", "p1", "#t", 1, 1, 0, 2⟩ =
      ⟨"1", "p1", "#t", 1, 100, 0, 2⟩ := by
    norm_num [boostChunk, h1]
  have hout : tagBoost ["#t"] [⟨"1", "p1", "#t", 1, 1, 0, 2⟩, ⟨"2", "p2", "zz", 1, 1, 0, 2⟩] =
      [⟨"1", "p1", "#t", 1, 100, 0, 2⟩, ⟨"2", "p2", "zz", 1, 1, 0, 2⟩] := by
    norm_num [tagBoost, boostChunk, h1, h2, sortChunksDesc, List.insertionSort,
      List.orderedInsert, chunkGE]
  have happ := tag_boost_ranks_matching_above ["#t"]
    [⟨"1", "p1", "#t", 1, 1, 0, 2⟩, ⟨"2", "p2", "zz", 1, 1, 0, 2⟩]
    ⟨"1", "p1", "#t", 1, 1, 0, 2⟩ ⟨"2", "p2", "zz", 1, 1, 0, 2⟩ 0 1
    (by decide) h1 h2 rfl (by norm_num)
    (by rw [hout, hb]; rfl) (by rw [hout]; rfl)
  exact ⟨by rw [happ.1 _ h1], happ.2.2⟩

/-! ## C9: defensive parsing of the triage response -/

theorem leadsAt_append (p t : List Char) : leadsAt p (p ++ t) = true := by
  induction p with
  | nil => rfl
  | cons c cs ih => simp [leadsAt, ih]

theorem leadsAt_head_eq {p0 c : Char} {ps cs : List Char}
    (h : leadsAt (p0 :: ps) (c :: cs) = true) : p0 = c := by
  simp only [leadsAt, Bool.and_eq_true, decide_eq_true_eq] at h
  exact h.1

theorem findOcc_eq_none_of_head_not_mem (p0 : Char) (ps : List Char) :
    ∀ s : List Char, p0 ∉ s → findOcc (p0 :: ps) s = none := by
  intro s
  induction s with
  | nil => intro; rfl
  | cons c cs ih =>
    intro h
    have hne : ¬ leadsAt (p0 :: ps) (c :: cs) = true := fun hl =>
      h (leadsAt_head_eq hl ▸ List.mem_cons_self c cs)
    simp only [findOcc, Bool.not_eq_true] at hne ⊢
    rw [hne]
    simp [ih fun hm => h (List.mem_cons_of_mem c hm)]

theorem findOcc_append_of_head_not_mem (p0 : Char) (ps pre rest : List Char)
    (hpre : p0 ∉ pre) :
    findOcc (p0 :: ps) (pre ++ (p0 :: ps) ++ rest) = some pre.length := by
  induction pre with
  | nil =>
    show (if leadsAt (p0 :: ps) (p0 :: (ps ++ rest)) = true then some 0
      else (findOcc (p0 :: ps) (ps ++ rest)).map (· + 1)) = some 0
    have hl : leadsAt (p0 :: ps) (p0 :: (ps ++ rest)) = true :=
      leadsAt_append (p0 :: ps) rest
    rw [if_pos hl]
  | cons x xs ih =>
    have hx : ¬ p0 = x := fun h => hpre (h ▸ List.mem_cons_self x xs)
    have hneg : ¬ leadsAt (p0 :: ps) (x :: ((xs ++ (p0 :: ps)) ++ rest)) = true :=
      fun hl => hx (leadsAt_head_eq hl)
    show (if leadsAt (p0 :: ps) (x :: ((xs ++ (p0 :: ps)) ++ rest)) = true then some 0
      else (findOcc (p0 :: ps) ((xs ++ (p0 :: ps)) ++ rest)).map (· + 1)) =
        some (xs.length + 1)
    rw [if_neg hneg, ih fun hm => hpre (List.mem_cons_of_mem x hm)]
    rfl

/-- C9 (amended): the triage parser never throws (it is a total
function) and behaves as follows — when the model output contains a
`<question>` span with nonempty content it returns the *trimmed*
content; when the expected tag is absent (or its content is empty, see
the counterexample) it returns the sentinel `not_needed` if that literal
occurs anywhere in the output, and the original query text otherwise. -/
theorem generateQuery_parses_defensively (c rest s : List Char) (q : String)
    (hc : '<' ∉ c) (hcne : c ≠ []) (hs : '<' ∉ s) :
    generateQuery (List.asString (openTagChars ++ c ++ closeTagChars ++ rest)) q =
      List.asString (trimChars c) ∧
    generateQuery (List.asString s) q =
      (if occursIn "not_needed".toList s then "not_needed" else q) := by
  constructor
  · have hopen : findOcc openTagChars (openTagChars ++ c ++ closeTagChars ++ rest) =
        some 0 := by
      show (if leadsAt openTagChars
            ('<' :: ("question>".toList ++ ((c ++ closeTagChars) ++ rest))) = true
          then some 0
          else (findOcc openTagChars
            ("question>".toList ++ ((c ++ closeTagChars) ++ rest))).map (· + 1)) = some 0
      have hl : leadsAt openTagChars
          ('<' :: ("question>".toList ++ ((c ++ closeTagChars) ++ rest))) = true :=
        leadsAt_append openTagChars ((c ++ closeTagChars) ++ rest)
      rw [if_pos hl]
    have hdrop : (openTagChars ++ c ++ closeTagChars ++ rest).drop
        (0 + openTagChars.length) = c ++ closeTagChars ++ rest := by
      rw [Nat.zero_add, List.append_assoc, List.append_assoc, List.drop_left,
        ← List.append_assoc]
    have hclose : findOcc closeTagChars (c ++ closeTagChars ++ rest) =
        some c.length := by
      have h2 : c ++ closeTagChars ++ rest = c ++ ('<' :: "/question>".toList) ++ rest := rfl
      rw [h2]
      exact findOcc_append_of_head_not_mem '<' "/question>".toList c rest hc
    have htake : (c ++ closeTagChars ++ rest).take c.length = c := by
      rw [List.append_assoc]
      exact List.take_left c (closeTagChars ++ rest)
    have hqc : questionCapture (openTagChars ++ c ++ closeTagChars ++ rest) = some c := by
      unfold questionCapture
      rw [hopen]
      dsimp only
      rw [hdrop, hclose]
      dsimp only
      rw [htake]
    unfold generateQuery
    have htl : (List.asString (openTagChars ++ c ++ closeTagChars ++ rest)).toList =
        openTagChars ++ c ++ closeTagChars ++ rest := rfl
    rw [htl, hqc]
    dsimp only
    rw [if_pos hcne]
  · have hnone : findOcc openTagChars s = none :=
      findOcc_eq_none_of_head_not_mem '<' "question>".toList s hs
    unfold generateQuery questionCapture
    have htl : (List.asString s).toList = s := rfl
    rw [htl, hnone]
    rfl

/-- Witness for the amended C9: a tagged response yields the trimmed tag
content; an untagged response containing the sentinel yields the
sentinel. -/
theorem generateQuery_parses_defensively_witness :
    generateQuery (List.asString (openTagChars ++ " find x ".toList ++ closeTagChars ++ "!".toList))
      "orig" = List.asString (trimChars " find x ".toList) ∧
    generateQuery (List.asString "is not_needed here".toList) "orig" =
      (if occursIn "not_needed".toList "is not_needed here".toList then "not_needed" else "orig") ∧
    List.asString (trimChars " find x ".toList) = "find x" ∧
    occursIn "not_needed".toList "is not_needed here".toList = true := by
  have h := generateQuery_parses_defensively " find x ".toList "!".toList
    "is not_needed here".toList "orig" (by decide) (by decide) (by decide)
  exact ⟨h.1, h.2, by decide, by decide⟩

/-! ## C8: `deleteByPath` removes exactly the entries of one path -/

theorem map_filter_push {α β : Type} (f : α → β) (pred : β → Bool) :
    ∀ l : List α, (l.filter fun a => pred (f a)).map f = (l.map f).filter pred
  | [] => rfl
  | a :: l => by
    simp only [List.filter_cons, List.map_cons]
    by_cases h : pred (f a) <;> simp [h, map_filter_push f pred l]

theorem lookupAssoc_mem_of_mem_keys (l : List (String × DocInfo)) (k : String)
    (h : k ∈ l.map Prod.fst) :
    ∃ v, lookupAssoc l k = some v ∧ (k, v) ∈ l := by
  rw [List.mem_map] at h
  obtain ⟨e, he, hek⟩ := h
  have hex : ∃ x ∈ l, (fun x => decide (x.1 = k)) x = true :=
    ⟨e, he, by simp [hek]⟩
  obtain ⟨a, ha⟩ := Option.isSome_iff_exists.mp (List.find?_isSome.mpr hex)
  refine ⟨a.2, ?_, ?_⟩
  · unfold lookupAssoc
    rw [ha]
    rfl
  · have h1 := List.find?_some ha
    have h2 := List.mem_of_find?_eq_some ha
    simp only [decide_eq_true_eq] at h1
    have ha2 : a = (k, a.2) := by
      cases a
      simp only at h1
      rw [h1]
    exact ha2 ▸ h2

/-- The ids collected by the `delete` handler are exactly the keys of
the entries with the deleted path; membership of a key is equivalent, on
a duplicate-free `documents` map, to that entry's path matching. -/
theorem mem_idsToDelete_iff (docs : List (String × DocInfo)) (p : String)
    (hkeys : (docs.map Prod.fst).Nodup) (e : String × DocInfo) (he : e ∈ docs) :
    ((docs.filter fun x => x.2.path = p).map Prod.fst).contains e.1 = true ↔
      e.2.path = p := by
  constructor
  · intro hc
    have hm := List.mem_of_elem_eq_true hc
    rw [List.mem_map] at hm
    obtain ⟨e2, he2, heq⟩ := hm
    rw [List.mem_filter] at he2
    have he2e : e2 = e := List.inj_on_of_nodup_map hkeys he2.1 he heq
    rw [← he2e]
    simpa using he2.2
  · intro hp
    refine List.elem_eq_true_of_mem ?_
    exact List.mem_map_of_mem Prod.fst (List.mem_filter.mpr ⟨he, by simp [hp]⟩)

/-- C8: on a well-formed worker state (MiniSearch ids in sync with the
`documents` map, no duplicate keys), a `delete` command responds
successfully with the exact number of entries whose stored path equals
the argument (zero included), leaves `documents` holding exactly the
entries of the other paths, and a subsequent `search` — for any
MiniSearch behaviour that returns ids of indexed documents (modelled
from the spec: the Lexical Index only surfaces indexed entries) — never
yields a candidate whose path equals the deleted path. -/
theorem deleteByPath_spec (rd : List Char → List Char) (msSearch : MSSearchFn)
    (now : Nat) (st : WorkerState) (p msgId : String)
    (hkeys : (st.documents.map Prod.fst).Nodup)
    (hsync : st.msDocs.map MSDoc.id = st.documents.map Prod.fst) :
    (workerHandleTyped rd msSearch now st ⟨msgId, .deleteCmd p⟩).2 =
      ⟨msgId, true, some (.deleteData "Deleted"
        ((st.documents.filter fun e => e.2.path = p).length)), none⟩ ∧
    (workerHandleTyped rd msSearch now st ⟨msgId, .deleteCmd p⟩).1.documents =
      st.documents.filter (fun e => !(e.2.path = p)) ∧
    (∀ now2 q tk msgId2 rs,
      (workerHandleTyped rd msSearch now2
          (workerHandleTyped rd msSearch now st ⟨msgId, .deleteCmd p⟩).1
          ⟨msgId2, .searchCmd q tk⟩).2.data = some (.searchData rs) →
      (∀ r ∈ msSearch (tokenizeTyped rd) now2
          (workerHandleTyped rd msSearch now st ⟨msgId, .deleteCmd p⟩).1.msDocs q,
        r.1 ∈ (workerHandleTyped rd msSearch now st ⟨msgId, .deleteCmd p⟩).1.msDocs.map MSDoc.id) →
      ∀ cand ∈ rs, cand.path ≠ p) := by
  have hdocs : (workerHandleTyped rd msSearch now st ⟨msgId, .deleteCmd p⟩).1.documents =
      st.documents.filter (fun e => !(e.2.path = p)) := by
    simp only [workerHandleTyped]
    refine List.filter_congr fun e he => ?_
    by_cases hp : e.2.path = p
    · rw [(mem_idsToDelete_iff st.documents p hkeys e he).mpr hp]
      simp [hp]
    · have hcf : ((st.documents.filter fun x => x.2.path = p).map Prod.fst).contains e.1 = false := by
        rw [Bool.eq_false_iff]
        intro hc
        exact hp ((mem_idsToDelete_iff st.documents p hkeys e he).mp hc)
      rw [hcf]
      simp [hp]
  refine ⟨?_, hdocs, ?_⟩
  · simp only [workerHandleTyped]
    rw [List.length_map]
  · intro now2 q tk msgId2 rs hdata hms cand hcand
    -- after deletion, MiniSearch ids and `documents` keys remain in sync
    have hsync2 : (workerHandleTyped rd msSearch now st ⟨msgId, .deleteCmd p⟩).1.msDocs.map MSDoc.id =
        (workerHandleTyped rd msSearch now st ⟨msgId, .deleteCmd p⟩).1.documents.map Prod.fst := by
      simp only [workerHandleTyped]
      rw [map_filter_push MSDoc.id
        (fun i => !(((st.documents.filter fun e => e.2.path = p).map Prod.fst).contains i)),
        map_filter_push Prod.fst
        (fun i => !(((st.documents.filter fun e => e.2.path = p).map Prod.fst).contains i)),
        hsync]
    -- every surviving `documents` entry has a different path
    have hpaths : ∀ e ∈ (workerHandleTyped rd msSearch now st ⟨msgId, .deleteCmd p⟩).1.documents,
        e.2.path ≠ p := by
      rw [hdocs]
      intro e he
      rw [List.mem_filter] at he
      simpa using he.2
    set st2 := (workerHandleTyped rd msSearch now st ⟨msgId, .deleteCmd p⟩).1 with hst2
    simp only [workerHandleTyped] at hdata
    rw [Option.some_inj] at hdata
    injection hdata with hdata
    rw [← hdata] at hcand
    rw [List.mem_map] at hcand
    obtain ⟨r, hr, hcand⟩ := hcand
    have hrm : r ∈ msSearch (tokenizeTyped rd) now2 st2.msDocs q :=
      List.take_subset _ _ hr
    have hid := hms r hrm
    rw [hsync2] at hid
    obtain ⟨v, hv, hmem⟩ := lookupAssoc_mem_of_mem_keys _ r.1 hid
    rw [hv] at hcand
    dsimp only at hcand
    rw [← hcand]
    exact hpaths (r.1, v) hmem

/-- Witness for C8 at a concrete state: two indexed chunks under two
paths; deleting `a.md` removes exactly its entry (count 1), and a search
over the surviving index yields only the `x.md` candidate. -/
theorem deleteByPath_spec_witness :
    (workerHandleTyped (fun s => s) (fun _ _ docs _ => docs.map fun d => (d.id, (1 : ℚ))) 0
        ⟨true,
          [⟨"x.md::0", "x", "", "x.md", "cx", "", "", "", "", "", "", 5, []⟩,
           ⟨"a.md::0", "a", "", "a.md", "ca", "", "", "", "", "", "", 5, []⟩],
          [("x.md::0", ⟨"x", "x.md", "cx"⟩), ("a.md::0", ⟨"a", "a.md", "ca"⟩)]⟩
        ⟨"m1", .deleteCmd "a.md"⟩).2 =
      ⟨"m1", true, some (.deleteData "Deleted" 1), none⟩ ∧
    "x.md" ≠ "a.md" := by
  have h := deleteByPath_spec (fun s => s)
    (fun _ _ docs _ => docs.map fun d => (d.id, (1 : ℚ))) 0
    ⟨true,
      [⟨"x.md::0", "x", "", "x.md", "cx", "", "", "", "", "", "", 5, []⟩,
       ⟨"a.md::0", "a", "", "a.md", "ca", "", "", "", "", "", "", 5, []⟩],
      [("x.md::0", ⟨"x", "x.md", "cx"⟩), ("a.md::0", ⟨"a", "a.md", "ca"⟩)]⟩
    "a.md" "m1" (by decide) (by decide)
  refine ⟨?_, ?_⟩
  · rw [h.1]
    rfl
  · exact h.2.2 0 "q" none "m2" [⟨"x.md::0", "cx", "x.md", 1, 1, "keyword"⟩]
      (by rfl) (by decide) ⟨"x.md::0", "cx", "x.md", 1, 1, "keyword"⟩ (by decide)

/-! ## C10: the two worker implementations agree when the CJK backend is absent -/

/-- With no segmentation backend, the jieba-enabled tokenizer coincides
with the typed worker's tokenizer. -/
theorem tokenizeJieba_none (rd : List Char → List Char) :
    tokenizeJieba rd none = tokenizeTyped rd := rfl

/-- `x || ''` is the identity on strings. -/
theorem jsOr_empty (x : String) : jsOr x "" = x := by
  unfold jsOr
  by_cases h : x = ""
  · rw [if_pos h, h]
  · rw [if_neg h]

/-- One-step agreement of the two handlers (same state, same message,
same clock, no CJK backend). -/
theorem workerHandle_agree (rd : List Char → List Char) (msSearch : MSSearchFn)
    (now : Nat) (st : WorkerState) (msg : WMessage) :
    workerHandleJieba rd none msSearch now st msg =
      workerHandleTyped rd msSearch now st msg := by
  rcases msg with ⟨mid, payload⟩
  cases payload with
  | initCmd => rfl
  | indexCmd docId content meta =>
    simp only [workerHandleJieba, workerHandleTyped, jsOr_empty]
  | deleteCmd p => rfl
  | searchCmd q tk =>
    simp only [workerHandleJieba, workerHandleTyped, tokenizeJieba_none]

theorem runWorker_agree (rd : List Char → List Char) (msSearch : MSSearchFn) :
    ∀ (msgs : List (Nat × WMessage)) (st : WorkerState),
      runWorker (workerHandleJieba rd none msSearch) msgs st =
        runWorker (workerHandleTyped rd msSearch) msgs st
  | [], _ => rfl
  | (now, m) :: rest, st => by
    simp only [runWorker, workerHandle_agree]
    exact congrArg _ (runWorker_agree rd msSearch rest _)

/-- C10: for every sequence of `init`/`index`/`delete`/`search` messages
whose `index` payloads carry a defined string `filePath` (the typed
payload model), and with the CJK segmentation backend unavailable, the
two worker message handlers produce identical response sequences from
the initial state — for every MiniSearch behaviour, diacritic folder and
clock. -/
theorem worker_implementations_equivalent (rd : List Char → List Char)
    (msSearch : MSSearchFn) (msgs : List (Nat × WMessage)) :
    runWorker (workerHandleJieba rd none msSearch) msgs initWorkerState =
      runWorker (workerHandleTyped rd msSearch) msgs initWorkerState :=
  runWorker_agree rd msSearch msgs initWorkerState

/-! ## C6: totality and (conditional) idempotence of `parseQuery`

The counterexample above shows idempotence fails in general; the amended
claim restricts to queries free of the facet-trigger characters. -/

/-- The characters that can activate a facet extractor: a double quote
(exact phrases), `#` (tags), `-` (both exclusion forms) and `:`
(`ext:`/`path:` filters). -/
def facetTriggerChars : List Char := [dquoteChar, '#', '-', ':']

/-- The lowercase ASCII letters — the only non-fixed points of
`lowerChar` map into this list. -/
def lcLetters : List Char :=
  ['a', 'b', 'c', 'd', 'e', 'f', 'g', 'h', 'i', 'j', 'k', 'l', 'm',
   'n', 'o', 'p', 'q', 'r', 's', 't', 'u', 'v', 'w', 'x', 'y', 'z']

theorem lowerChar_image (c x : Char) (h : lowerChar c = x) :
    c = x ∨ x ∈ lcLetters := by
  unfold lowerChar at h
  cases hf : ucPairs.find? fun p => p.1 = c with
  | none =>
    rw [hf] at h
    simp only [Option.map_none', Option.getD_none] at h
    exact Or.inl h
  | some p =>
    rw [hf] at h
    simp only [Option.map_some', Option.getD_some] at h
    have hp : p ∈ ucPairs := List.mem_of_find?_eq_some hf
    have hall : ∀ q ∈ ucPairs, q.2 ∈ lcLetters := by decide
    right
    rw [← h]
    exact hall p hp

theorem lowerChar_fix_of_mem (x : Char) (hx : x ∈ lcLetters) :
    lowerChar x = x := by
  unfold lowerChar
  have hnone : (ucPairs.find? fun p => p.1 = x) = none := by
    rw [List.find?_eq_none]
    intro q hq
    have hall : ∀ y ∈ lcLetters, ∀ q ∈ ucPairs, ¬ q.1 = y := by decide
    simpa using hall x hx q hq
  rw [hnone]
  rfl

theorem lowerChar_idem (c : Char) : lowerChar (lowerChar c) = lowerChar c := by
  rcases lowerChar_image c (lowerChar c) rfl with h | h
  · rw [← h]
    rw [← h]
  · exact lowerChar_fix_of_mem _ h

theorem isWsChar_false_of_mem_lcLetters (x : Char) (hx : x ∈ lcLetters) :
    isWsChar x = false := by
  fin_cases hx <;> rfl

theorem isWsChar_of_lowerChar (c : Char) (h : isWsChar (lowerChar c) = true) :
    isWsChar c = true := by
  rcases lowerChar_image c (lowerChar c) rfl with hc | hc
  · rw [hc]
    exact h
  · rw [isWsChar_false_of_mem_lcLetters _ hc] at h
    cases h

theorem lowerChar_trigger (c x : Char) (hx : x ∈ facetTriggerChars)
    (h : lowerChar c = x) : c = x := by
  rcases lowerChar_image c x h with hc | hc
  · exact hc
  · exfalso
    fin_cases hx <;> revert hc <;> decide

/-- A successful case-insensitive prefix match puts every pattern
character in the lowercase image of the subject. -/
theorem leadsAtCI_mem : ∀ (pat s : List Char), leadsAtCI pat s = true →
    ∀ p ∈ pat, ∃ c ∈ s, lowerChar c = p
  | [], _, _, p, hp => absurd hp (List.not_mem_nil p)
  | _ :: _, [], h, _, _ => by cases h
  | p0 :: ps, c :: cs, h, p, hp => by
    simp only [leadsAtCI, Bool.and_eq_true, decide_eq_true_eq] at h
    rcases List.mem_cons.mp hp with hp | hp
    · exact ⟨c, List.mem_cons_self c cs, (hp ▸ h.1).symm⟩
    · obtain ⟨c2, hc2, hc2e⟩ := leadsAtCI_mem ps cs h.2 p hp
      exact ⟨c2, List.mem_cons_of_mem c hc2, hc2e⟩

/-- Scanning with a matcher that fails on every trigger-free suffix
finds nothing in a trigger-free subject. -/
theorem scanFindPrev_eq_none
    (here : Option Char → List Char → Option (List Char × List Char))
    (hfail : ∀ prev c cs, (∀ x ∈ c :: cs, x ∉ facetTriggerChars) →
      here prev (c :: cs) = none) :
    ∀ (s : List Char) (prev : Option Char), (∀ c ∈ s, c ∉ facetTriggerChars) →
      scanFindPrev here prev s = none
  | [], _, _ => rfl
  | c :: cs, prev, h => by
    simp only [scanFindPrev, hfail prev c cs h,
      scanFindPrev_eq_none here hfail cs (some c)
        fun x hx => h x (List.mem_cons_of_mem c hx)]
    rfl

theorem quoteHere_none (c : Char) (cs : List Char)
    (h : ∀ x ∈ c :: cs, x ∉ facetTriggerChars) :
    quoteHere (c :: cs) = none := by
  have hc : ¬ c = dquoteChar := fun he =>
    h c (List.mem_cons_self c cs) (he ▸ by decide)
  simp only [quoteHere]
  rw [if_neg hc]

theorem tagHere_none (s : List Char)
    (h : ∀ x ∈ s, x ∉ facetTriggerChars) :
    tagHere s = none := by
  match s with
  | [] => rfl
  | [_] => rfl
  | c0 :: c :: cs =>
    have hc : ¬ c0 = '#' := fun he =>
      h c0 (List.mem_cons_self c0 _) (he ▸ by decide)
    simp only [tagHere]
    rw [if_neg (by simp [hc])]

theorem extHere_none (s : List Char)
    (h : ∀ x ∈ s, x ∉ facetTriggerChars) :
    extHere s = none := by
  unfold extHere
  rw [if_neg]
  intro hci
  obtain ⟨c, hc, hce⟩ := leadsAtCI_mem _ s hci ':' (by decide)
  exact h c hc (lowerChar_trigger c ':' (by decide) hce ▸ by decide)

theorem pathIncHere_none (prev : Option Char) (s : List Char)
    (h : ∀ x ∈ s, x ∉ facetTriggerChars) :
    pathIncHere prev s = none := by
  unfold pathIncHere
  by_cases hp : prev = some '-'
  · rw [if_pos hp]
  · rw [if_neg hp, if_neg]
    intro hci
    obtain ⟨c, hc, hce⟩ := leadsAtCI_mem _ s hci ':' (by decide)
    exact h c hc (lowerChar_trigger c ':' (by decide) hce ▸ by decide)

theorem pathExcHere_none (s : List Char)
    (h : ∀ x ∈ s, x ∉ facetTriggerChars) :
    pathExcHere s = none := by
  unfold pathExcHere
  rw [if_neg]
  intro hci
  obtain ⟨c, hc, hce⟩ := leadsAtCI_mem _ s hci '-' (by decide)
  exact h c hc (lowerChar_trigger c '-' (by decide) hce ▸ by decide)

theorem excludeHere_none (s : List Char)
    (h : ∀ x ∈ s, x ∉ facetTriggerChars) :
    excludeHere s = none := by
  match s with
  | [] => rfl
  | c0 :: cs =>
    have hc : ¬ c0 = '-' := fun he =>
      h c0 (List.mem_cons_self c0 _) (he ▸ by decide)
    simp only [excludeHere]
    rw [if_neg hc]

/-- An extraction loop whose first `exec` finds nothing returns the
accumulator and the string untouched. -/
theorem extractLoop_no_match
    (here : Option Char → List Char → Option (List Char × List Char))
    (emit : List Char × List Char → List Char) (fuel : Nat) (s : List Char)
    (hnone : scanFindPrev here none s = none) :
    extractLoop here emit (fuel + 1) s 0 [] = ([], s) := by
  have hexec : execFrom here s 0 = none := by
    unfold execFrom
    simp [hnone]
  unfold extractLoop
  rw [hexec]

theorem quoteLoop_no_match (raw : List Char) (fuel : Nat) (rem : List Char)
    (hnone : scanFindPrev (fun _ t => quoteHere t) none raw = none) :
    quoteLoop raw (fuel + 1) 0 rem [] = ([], rem) := by
  have hexec : execFrom (fun _ t => quoteHere t) raw 0 = none := by
    unfold execFrom
    simp [hnone]
  unfold quoteLoop
  rw [hexec]

/-- On a trigger-free subject, `parseQuery` extracts no facet and only
tokenizes: all six extraction loops find no match. -/
theorem parseQueryCore_trigger_free (s : List Char)
    (h : ∀ c ∈ s, c ∉ facetTriggerChars) :
    parseQueryCore s = ⟨textTokensOf s, [], [], [], [], [], []⟩ := by
  have hq : quoteLoop s (s.length + 1) 0 s [] = ([], s) :=
    quoteLoop_no_match s s.length s
      (scanFindPrev_eq_none _ (fun _ c cs hx => quoteHere_none c cs hx) s none h)
  have ht : extractLoop (fun _ t => tagHere t) (fun m => m.1) (s.length + 1) s 0 [] = ([], s) :=
    extractLoop_no_match _ _ s.length s
      (scanFindPrev_eq_none _ (fun _ c cs hx => tagHere_none (c :: cs) hx) s none h)
  have he : extractLoop (fun _ t => extHere t) (fun m => m.2.map lowerChar)
      (s.length + 1) s 0 [] = ([], s) :=
    extractLoop_no_match _ _ s.length s
      (scanFindPrev_eq_none _ (fun _ c cs hx => extHere_none (c :: cs) hx) s none h)
  have hpi : extractLoop pathIncHere (fun m => m.2.map lowerChar)
      (s.length + 1) s 0 [] = ([], s) :=
    extractLoop_no_match _ _ s.length s
      (scanFindPrev_eq_none _ (fun prev c cs hx => pathIncHere_none prev (c :: cs) hx) s none h)
  have hpe : extractLoop (fun _ t => pathExcHere t) (fun m => m.2.map lowerChar)
      (s.length + 1) s 0 [] = ([], s) :=
    extractLoop_no_match _ _ s.length s
      (scanFindPrev_eq_none _ (fun _ c cs hx => pathExcHere_none (c :: cs) hx) s none h)
  have hx : extractLoop (fun _ t => excludeHere t) (fun m => m.2.map lowerChar)
      (s.length + 1) s 0 [] = ([], s) :=
    extractLoop_no_match _ _ s.length s
      (scanFindPrev_eq_none _ (fun _ c cs hx => excludeHere_none (c :: cs) hx) s none h)
  unfold parseQueryCore
  rw [hq]
  dsimp only
  rw [ht]
  dsimp only
  rw [he]
  dsimp only
  rw [hpi]
  dsimp only
  rw [hpe]
  dsimp only
  rw [hx]

/-- Every character of every piece of the whitespace split comes from
the current run or the remaining input, and is not whitespace. -/
theorem wsSplitGo_chars : ∀ (s : List Char) (mode : Bool) (cur : List Char),
    (∀ c ∈ cur, isWsChar c = false) →
    ∀ t ∈ wsSplitGo mode cur s, ∀ c ∈ t, (c ∈ cur ∨ c ∈ s) ∧ isWsChar c = false
  | [], _, cur => by
    intro hcur t ht c hc
    simp only [wsSplitGo, List.mem_singleton] at ht
    subst ht
    rw [List.mem_reverse] at hc
    exact ⟨Or.inl hc, hcur c hc⟩
  | c0 :: cs, mode, cur => by
    intro hcur t ht c hc
    simp only [wsSplitGo] at ht
    by_cases h0 : isWsChar c0
    · rw [if_pos h0] at ht
      have hrest : t ∈ wsSplitGo true [] cs →
          (c ∈ cur ∨ c ∈ c0 :: cs) ∧ isWsChar c = false := by
        intro ht2
        have := wsSplitGo_chars cs true [] (by intro x hx; cases hx) t ht2 c hc
        refine ⟨Or.inr ?_, this.2⟩
        rcases this.1 with h | h
        · cases h
        · exact List.mem_cons_of_mem c0 h
      cases mode with
      | true => exact hrest ht
      | false =>
        rcases List.mem_cons.mp ht with ht | ht
        · subst ht
          rw [List.mem_reverse] at hc
          exact ⟨Or.inl hc, hcur c hc⟩
        · exact hrest ht
    · rw [if_neg h0] at ht
      have h0f : isWsChar c0 = false := by
        rw [Bool.not_eq_true] at h0
        exact h0
      have hcur2 : ∀ x ∈ c0 :: cur, isWsChar x = false := by
        intro x hx
        rcases List.mem_cons.mp hx with hx | hx
        · exact hx ▸ h0f
        · exact hcur x hx
      have := wsSplitGo_chars cs false (c0 :: cur) hcur2 t ht c hc
      refine ⟨?_, this.2⟩
      rcases this.1 with h | h
      · rcases List.mem_cons.mp h with h | h
        · exact Or.inr (h ▸ List.mem_cons_self c0 cs)
        · exact Or.inl h
      · exact Or.inr (List.mem_cons_of_mem c0 h)

/-- `trim` is the identity on whitespace-free strings. -/
theorem trimChars_eq_self (t : List Char) (h : ∀ c ∈ t, isWsChar c = false) :
    trimChars t = t := by
  have hdrop : ∀ (l : List Char), (∀ c ∈ l, isWsChar c = false) →
      l.dropWhile isWsChar = l := by
    intro l hl
    cases l with
    | nil => rfl
    | cons c cs =>
      rw [List.dropWhile_cons_of_neg]
      rw [hl c (List.mem_cons_self c cs)]
      exact Bool.false_ne_true
  unfold trimChars
  rw [hdrop t h, hdrop t.reverse fun c hc => h c (List.mem_reverse.mp hc),
    List.reverse_reverse]

/-- Consuming a whitespace-free token extends the current run. -/
theorem wsSplitGo_through_tok : ∀ (t : List Char),
    (∀ c ∈ t, isWsChar c = false) → ∀ (cur s : List Char),
    wsSplitGo false cur (t ++ s) = wsSplitGo false (t.reverse ++ cur) s
  | [], _, cur, s => by simp
  | c :: ts, h, cur, s => by
    have hc : isWsChar c = false := h c (List.mem_cons_self c ts)
    have hstep : wsSplitGo false cur (c :: (ts ++ s)) =
        wsSplitGo false (c :: cur) (ts ++ s) := by
      simp [wsSplitGo, hc]
    show wsSplitGo false cur (c :: (ts ++ s)) = _
    rw [hstep,
      wsSplitGo_through_tok ts (fun x hx => h x (List.mem_cons_of_mem c hx)) (c :: cur) s]
    congr 1
    simp

/-- After a separator, a non-whitespace head re-enters token mode. -/
theorem wsSplitGo_true_eq_false (c : Char) (l : List Char)
    (hc : isWsChar c = false) :
    wsSplitGo true [] (c :: l) = wsSplitGo false [] (c :: l) := by
  simp [wsSplitGo, hc]

/-- Splitting the space-join of nonempty whitespace-free tokens recovers
the tokens. -/
theorem wsSplit_joinSp : ∀ (ts : List (List Char)), ts ≠ [] →
    (∀ t ∈ ts, t ≠ [] ∧ ∀ c ∈ t, isWsChar c = false) →
    wsSplit (joinSp ts) = ts
  | [], h, _ => absurd rfl h
  | [t], _, hts => by
    have ht := hts t (List.mem_singleton.mpr rfl)
    show wsSplitGo false [] (joinSp [t]) = [t]
    have hj : joinSp [t] = t ++ [] := by simp [joinSp]
    rw [hj, wsSplitGo_through_tok t ht.2 [] []]
    simp [wsSplitGo]
  | t :: t2 :: ts, _, hts => by
    have ht := hts t (List.mem_cons_self t _)
    show wsSplitGo false [] (t ++ (' ' :: joinSp (t2 :: ts))) = t :: t2 :: ts
    rw [wsSplitGo_through_tok t ht.2 [] (' ' :: joinSp (t2 :: ts))]
    have hws : isWsChar ' ' = true := rfl
    have hstep : wsSplitGo false (t.reverse ++ []) (' ' :: joinSp (t2 :: ts)) =
        (t.reverse ++ []).reverse :: wsSplitGo true [] (joinSp (t2 :: ts)) := by
      simp [wsSplitGo, hws]
    rw [hstep]
    have ht2 := hts t2 (List.mem_cons_of_mem t (List.mem_cons_self t2 ts))
    obtain ⟨c2, cs2, hc2⟩ : ∃ c2 cs2, t2 = c2 :: cs2 := by
      cases t2 with
      | nil => exact absurd rfl ht2.1
      | cons a b => exact ⟨a, b, rfl⟩
    have hjshape : ∃ r, joinSp (t2 :: ts) = c2 :: (cs2 ++ r) := by
      cases ts with
      | nil =>
        refine ⟨[], ?_⟩
        rw [hc2]
        simp [joinSp]
      | cons t3 ts3 =>
        refine ⟨' ' :: joinSp (t3 :: ts3), ?_⟩
        rw [hc2]
        rfl
    obtain ⟨r, hr⟩ := hjshape
    have hc2ws : isWsChar c2 = false := ht2.2 c2 (hc2 ▸ List.mem_cons_self c2 cs2)
    rw [hr, wsSplitGo_true_eq_false c2 (cs2 ++ r) hc2ws, ← hr]
    have hrec := wsSplit_joinSp (t2 :: ts) (by simp)
      fun x hx => hts x (List.mem_cons_of_mem t hx)
    unfold wsSplit at hrec
    rw [hrec]
    simp

theorem trimChars_subset (l : List Char) : ∀ c ∈ trimChars l, c ∈ l := by
  intro c hc
  unfold trimChars at hc
  rw [List.mem_reverse] at hc
  have h1 := (List.dropWhile_sublist (l := (l.dropWhile isWsChar).reverse)
    (p := isWsChar)).subset hc
  rw [List.mem_reverse] at h1
  exact (List.dropWhile_sublist (l := l) (p := isWsChar)).subset h1

theorem toList_asString (t : List Char) : (List.asString t).toList = t := rfl

/-- The free-text tokens are nonempty, whitespace-free, fixed under
lowercasing, and made of lowercased input characters. -/
theorem textTokensOf_props (s : List Char) :
    ∀ t ∈ textTokensOf s, t ≠ [] ∧ (∀ c ∈ t, isWsChar c = false) ∧
      t.map lowerChar = t ∧ ∀ c ∈ t, ∃ c0 ∈ s, lowerChar c0 = c := by
  intro t ht
  unfold textTokensOf at ht
  rw [List.mem_filter] at ht
  obtain ⟨htm, htne⟩ := ht
  rw [List.mem_map] at htm
  obtain ⟨piece, hpiece, rfl⟩ := htm
  have hpc : ∀ c ∈ piece, c ∈ s ∧ isWsChar c = false := by
    intro c hc
    have := wsSplitGo_chars s false [] (by intro x hx; cases hx) piece hpiece c hc
    refine ⟨?_, this.2⟩
    rcases this.1 with h | h
    · cases h
    · exact h
  refine ⟨by simpa using htne, ?_, ?_, ?_⟩
  · intro c hc
    rw [List.mem_map] at hc
    obtain ⟨c0, hc0, rfl⟩ := hc
    by_contra hws
    rw [Bool.not_eq_false] at hws
    have := isWsChar_of_lowerChar c0 hws
    rw [(hpc c0 (trimChars_subset piece c0 hc0)).2] at this
    cases this
  · rw [List.map_map]
    refine List.map_congr_left fun c _ => lowerChar_idem c
  · intro c hc
    rw [List.mem_map] at hc
    obtain ⟨c0, hc0, rfl⟩ := hc
    exact ⟨c0, (hpc c0 (trimChars_subset piece c0 hc0)).1, rfl⟩

theorem joinSp_chars : ∀ (ts : List (List Char)) (c : Char), c ∈ joinSp ts →
    c = ' ' ∨ ∃ t ∈ ts, c ∈ t
  | [], c, hc => absurd hc (List.not_mem_nil c)
  | [t], c, hc => Or.inr ⟨t, List.mem_singleton.mpr rfl, hc⟩
  | t :: t2 :: ts, c, hc => by
    have hj : joinSp (t :: t2 :: ts) = t ++ (' ' :: joinSp (t2 :: ts)) := rfl
    rw [hj] at hc
    rcases List.mem_append.mp hc with hc | hc
    · exact Or.inr ⟨t, List.mem_cons_self t _, hc⟩
    · rcases List.mem_cons.mp hc with hc | hc
      · exact Or.inl hc
      · rcases joinSp_chars (t2 :: ts) c hc with h | ⟨t3, ht3, hct3⟩
        · exact Or.inl h
        · exact Or.inr ⟨t3, List.mem_cons_of_mem t ht3, hct3⟩

/-- Re-splitting the joined emitted tokens gives the tokens back. -/
theorem textTokensOf_joinSp (s : List Char) :
    textTokensOf (joinSp (textTokensOf s)) = textTokensOf s := by
  by_cases hne : textTokensOf s = []
  · rw [hne]
    rfl
  · have hprops := textTokensOf_props s
    have hsplit : wsSplit (joinSp (textTokensOf s)) = textTokensOf s :=
      wsSplit_joinSp (textTokensOf s) hne fun t ht =>
        ⟨(hprops t ht).1, (hprops t ht).2.1⟩
    have hstep : textTokensOf (joinSp (textTokensOf s)) =
        ((wsSplit (joinSp (textTokensOf s))).map fun t =>
          (trimChars t).map lowerChar).filter (· ≠ []) := rfl
    rw [hstep, hsplit]
    have hmap : (textTokensOf s).map (fun t => (trimChars t).map lowerChar) =
        textTokensOf s := by
      have hm2 : (textTokensOf s).map (fun t => (trimChars t).map lowerChar) =
          (textTokensOf s).map id :=
        List.map_congr_left fun t ht => by
          rw [trimChars_eq_self t (hprops t ht).2.1, (hprops t ht).2.2.1]
          rfl
      rw [hm2, List.map_id]
    rw [hmap, List.filter_eq_self.mpr]
    intro t ht
    simpa using (hprops t ht).1

/-- C6 (amended): `parseQuery` is total by construction (every branch of
the model is a total function; malformed input degrades to free text),
and it is idempotent on its own emitted `text` field *for queries free
of the facet-trigger characters* `"`, `#`, `-`, `:` — re-parsing
`text.join(' ')` yields the same `text` and empty facets.  (Without the
restriction idempotence fails, see the counterexample.) -/
theorem parseQuery_conditionally_idempotent (raw : String)
    (h : ∀ c ∈ raw.toList, c ∉ facetTriggerChars) :
    (parseQuery raw).exactTerms = [] ∧ (parseQuery raw).tags = [] ∧
    (parseQuery raw).extensions = [] ∧ (parseQuery raw).pathIncludes = [] ∧
    (parseQuery raw).pathExcludes = [] ∧ (parseQuery raw).textExcludes = [] ∧
    parseQuery (joinSpace (parseQuery raw).text) =
      { text := (parseQuery raw).text, exactTerms := [], tags := [],
        extensions := [], pathIncludes := [], pathExcludes := [],
        textExcludes := [] } := by
  have hcore := parseQueryCore_trigger_free raw.toList h
  have hpq : parseQuery raw =
      ⟨(textTokensOf raw.toList).map List.asString, [], [], [], [], [], []⟩ := by
    unfold parseQuery
    rw [hcore]
    rfl
  have hmapid : (((textTokensOf raw.toList).map List.asString).map String.toList) =
      textTokensOf raw.toList := by
    rw [List.map_map]
    exact (List.map_congr_left fun t _ => rfl).trans (List.map_id _)
  have harg : (joinSpace ((textTokensOf raw.toList).map List.asString)).toList =
      joinSp (textTokensOf raw.toList) := by
    show joinSp (((textTokensOf raw.toList).map List.asString).map String.toList) =
      joinSp (textTokensOf raw.toList)
    rw [hmapid]
  have htrig : ∀ c ∈ joinSp (textTokensOf raw.toList), c ∉ facetTriggerChars := by
    intro c hc hcin
    rcases joinSp_chars (textTokensOf raw.toList) c hc with hsp | ⟨t, ht, hct⟩
    · subst hsp
      revert hcin
      decide
    · obtain ⟨c0, hc0s, hc0e⟩ := (textTokensOf_props raw.toList t ht).2.2.2 c hct
      have hc0c := lowerChar_trigger c0 c hcin hc0e
      exact h c0 hc0s (hc0c ▸ hcin)
  have hcore2 := parseQueryCore_trigger_free (joinSp (textTokensOf raw.toList)) htrig
  refine ⟨by rw [hpq], by rw [hpq], by rw [hpq], by rw [hpq], by rw [hpq], by rw [hpq], ?_⟩
  rw [hpq]
  show parseQuery (joinSpace ((textTokensOf raw.toList).map List.asString)) =
    ⟨(textTokensOf raw.toList).map List.asString, [], [], [], [], [], []⟩
  unfold parseQuery
  rw [harg, hcore2, textTokensOf_joinSp]
  rfl

/-- Witness for the amended C6: a trigger-free raw query with uppercase
letters and repeated whitespace; re-parsing the joined text is stable. -/
theorem parseQuery_conditionally_idempotent_witness :
    (parseQuery "Hello  WORLD x").text = ["hello", "world", "x"] ∧
    (parseQuery "Hello  WORLD x").tags = [] ∧
    parseQuery (joinSpace (parseQuery "Hello  WORLD x").text) =
      { text := (parseQuery "Hello  WORLD x").text, exactTerms := [], tags := [],
        extensions := [], pathIncludes := [], pathExcludes := [],
        textExcludes := [] } := by
  have h := parseQuery_conditionally_idempotent "Hello  WORLD x" (by decide)
  exact ⟨by decide, h.2.1, h.2.2.2.2.2.2⟩
